import Mathlib

/-!
The interactive shell of datalake/tools (`internal/db/repl.go`) and its
command-line entry point (`site-intelligence.go`).

A shallow embedding of the Go code.  A Go `string` is a sequence of bytes;
`strings.TrimSpace` and `strings.Fields` of the standard library are modelled
on bytes, with Go's UTF-8 decoder (an invalid byte decodes to `RuneError` of
width 1) and `unicode.IsSpace`.
-/

namespace Datalake

/-! ## Go strings and the `unicode/utf8`, `unicode`, `strings` functions used -/

/-- A Go string: a sequence of bytes. -/
abbrev Str := List (Fin 256)

/-- Go `utf8.RuneError`, the replacement character U+FFFD. -/
def RuneError : Nat := 0xFFFD

/-- Go `utf8.RuneSelf`: bytes below it are single-byte runes. -/
def RuneSelf : Nat := 0x80

/-- The UTF-8 encoding of one rune (Go `utf8.EncodeRune`); used to write
string literals as byte sequences. -/
def EncodeRune (r : Nat) : Str :=
  if r < 0x80 then [Fin.ofNat r]
  else if r < 0x800 then [Fin.ofNat (0xC0 ||| (r >>> 6)), Fin.ofNat (0x80 ||| (r &&& 0x3F))]
  else if r > 0x10FFFF ∨ (0xD800 ≤ r ∧ r ≤ 0xDFFF) then [0xEF, 0xBF, 0xBD]
  else if r < 0x10000 then
    [Fin.ofNat (0xE0 ||| (r >>> 12)), Fin.ofNat (0x80 ||| ((r >>> 6) &&& 0x3F)),
     Fin.ofNat (0x80 ||| (r &&& 0x3F))]
  else
    [Fin.ofNat (0xF0 ||| (r >>> 18)), Fin.ofNat (0x80 ||| ((r >>> 12) &&& 0x3F)),
     Fin.ofNat (0x80 ||| ((r >>> 6) &&& 0x3F)), Fin.ofNat (0x80 ||| (r &&& 0x3F))]

/-- The bytes of a string literal. -/
def bytes (s : String) : Str :=
  (s.toList.map (fun c => EncodeRune c.toNat)).flatten

/-- Go's `first` table joined with `acceptRanges`: for a lead byte of a
multi-byte sequence, the length of the sequence and the accepted range of the
second byte; `none` for a byte that cannot start a multi-byte sequence. -/
def leadInfo (s0 : Nat) : Option (Nat × Nat × Nat) :=
  if 0xC2 ≤ s0 ∧ s0 ≤ 0xDF then some (2, 0x80, 0xBF)
  else if s0 = 0xE0 then some (3, 0xA0, 0xBF)
  else if 0xE1 ≤ s0 ∧ s0 ≤ 0xEC then some (3, 0x80, 0xBF)
  else if s0 = 0xED then some (3, 0x80, 0x9F)
  else if 0xEE ≤ s0 ∧ s0 ≤ 0xEF then some (3, 0x80, 0xBF)
  else if s0 = 0xF0 then some (4, 0x90, 0xBF)
  else if 0xF1 ≤ s0 ∧ s0 ≤ 0xF3 then some (4, 0x80, 0xBF)
  else if s0 = 0xF4 then some (4, 0x80, 0x8F)
  else none

/-- Go `utf8.DecodeRuneInString`: the first rune of `s` and its width in
bytes.  The empty string gives `(RuneError, 0)`, an invalid or truncated
encoding gives `(RuneError, 1)`.  Go compares the length of the string with
the length of the sequence before it reads the bytes; here a sequence cut
short by the end of the string shows as a missing byte, with the same result. -/
def DecodeRuneInString : Str → Nat × Nat
  | [] => (RuneError, 0)
  | s0 :: t =>
    if s0.val < RuneSelf then (s0.val, 1)
    else
      match leadInfo s0.val with
      | none => (RuneError, 1)
      | some (sz, lo, hi) =>
        match t with
        | [] => (RuneError, 1)
        | s1 :: t1 =>
          if s1.val < lo ∨ hi < s1.val then (RuneError, 1)
          else if sz ≤ 2 then (((s0.val &&& 0x1F) <<< 6) ||| (s1.val &&& 0x3F), 2)
          else
            match t1 with
            | [] => (RuneError, 1)
            | s2 :: t2 =>
              if s2.val < 0x80 ∨ 0xBF < s2.val then (RuneError, 1)
              else if sz ≤ 3 then
                (((s0.val &&& 0x0F) <<< 12) ||| ((s1.val &&& 0x3F) <<< 6) ||| (s2.val &&& 0x3F), 3)
              else
                match t2 with
                | [] => (RuneError, 1)
                | s3 :: _ =>
                  if s3.val < 0x80 ∨ 0xBF < s3.val then (RuneError, 1)
                  else
                    (((s0.val &&& 0x07) <<< 18) ||| ((s1.val &&& 0x3F) <<< 12)
                      ||| ((s2.val &&& 0x3F) <<< 6) ||| (s3.val &&& 0x3F), 4)

/-- Go `utf8.RuneStart`: the byte is not a continuation byte. -/
def RuneStart (b : Fin 256) : Bool := b.val &&& 0xC0 != 0x80

/-- The backward scan of `utf8.DecodeLastRuneInString`:
`for start--; start >= lim; start-- { if RuneStart(s[start]) { break } }`,
entered with `start` already decremented. -/
def scanBack (s : Str) (lim : Int) : Nat → Int → Int
  | 0, start => start
  | n + 1, start =>
    if start ≥ lim then
      if RuneStart (s.getD start.toNat 0) then start else scanBack s lim n (start - 1)
    else start

/-- Go `utf8.DecodeLastRuneInString`: the last rune of `s` and its width. -/
def DecodeLastRuneInString (s : Str) : Nat × Nat :=
  let stop := s.length
  if stop = 0 then (RuneError, 0)
  else
    let r := (s.getD (stop - 1) 0).val
    if r < RuneSelf then (r, 1)
    else
      let lim : Int := if (stop : Int) - 4 < 0 then 0 else (stop : Int) - 4
      let start := scanBack s lim 4 ((stop : Int) - 2)
      let start := if start < 0 then 0 else start.toNat
      let (r, size) := DecodeRuneInString (s.drop start)
      if start + size ≠ stop then (RuneError, 1) else (r, size)

/-- Go `unicode.IsSpace`: the Latin-1 spaces
`'\t', '\n', '\v', '\f', '\r', ' ', U+0085, U+00A0` and, above Latin-1, the
code points with the Unicode `White_Space` property. -/
def IsSpace (r : Nat) : Bool :=
  if r ≤ 0xFF then
    r == 0x09 || r == 0x0A || r == 0x0B || r == 0x0C || r == 0x0D || r == 0x20
      || r == 0x85 || r == 0xA0
  else
    r == 0x1680 || (0x2000 ≤ r && r ≤ 0x200A) || r == 0x2028 || r == 0x2029
      || r == 0x202F || r == 0x205F || r == 0x3000

/-- The loop of Go `strings.indexFunc`: from byte offset `start`, the offset
of the first rune `r` with `f r = truth`; `none` is Go's `-1`.  The first
argument bounds the number of iterations; every iteration advances `start`
by at least one byte.  Go reads a byte below `RuneSelf` without the decoder,
which gives the same rune and width. -/
def indexFuncLoop (s : Str) (f : Nat → Bool) (truth : Bool) : Nat → Nat → Option Nat
  | 0, _ => none
  | n + 1, start =>
    if start < s.length then
      let (r, wid) := DecodeRuneInString (s.drop start)
      if f r == truth then some start
      else indexFuncLoop s f truth n (start + wid)
    else none

/-- Go `strings.indexFunc`. -/
def indexFunc (s : Str) (f : Nat → Bool) (truth : Bool) : Option Nat :=
  indexFuncLoop s f truth s.length 0

/-- The loop of Go `strings.lastIndexFunc`, from `i` downwards:
`for i > 0 { r, size := DecodeLastRuneInString(s[0:i]); i -= size; if f(r) == truth { return i } }`. -/
def lastIndexFuncLoop (s : Str) (f : Nat → Bool) (truth : Bool) : Nat → Nat → Option Nat
  | 0, _ => none
  | n + 1, i =>
    if i > 0 then
      let (r, size) := DecodeLastRuneInString (s.take i)
      if f r == truth then some (i - size)
      else lastIndexFuncLoop s f truth n (i - size)
    else none

/-- Go `strings.lastIndexFunc`. -/
def lastIndexFunc (s : Str) (f : Nat → Bool) (truth : Bool) : Option Nat :=
  lastIndexFuncLoop s f truth s.length s.length

/-- Go `strings.TrimLeftFunc`: `s` without its leading runes satisfying `f`. -/
def TrimLeftFunc (s : Str) (f : Nat → Bool) : Str :=
  match indexFunc s f false with
  | none => []
  | some i => s.drop i

/-- Go `strings.TrimRightFunc`: `s` without its trailing runes satisfying `f`. -/
def TrimRightFunc (s : Str) (f : Nat → Bool) : Str :=
  match lastIndexFunc s f false with
  | some i =>
    if (s.getD i 0).val ≥ RuneSelf then s.take (i + (DecodeRuneInString (s.drop i)).2)
    else s.take (i + 1)
  | none => s.take 0

/-- Go `strings.TrimFunc`. -/
def TrimFunc (s : Str) (f : Nat → Bool) : Str :=
  TrimRightFunc (TrimLeftFunc s f) f

/-- Go `strings.TrimSpace`: `s` without leading and trailing white space, as
defined by Unicode, that is `TrimFunc(s, unicode.IsSpace)`. -/
def TrimSpace (s : Str) : Str := TrimFunc s IsSpace

/-- The field-cutting loop of Go `strings.FieldsFunc` over the rest of the
string: `cur` is the part of the current field read so far (`none` is
`fieldStart == -1`).  A rune satisfying `f` closes the current field, any
other rune opens or extends it; at the end of the string an open field is
emitted. -/
def fieldsLoop (f : Nat → Bool) : Nat → Str → Option Str → List Str
  | _, [], none => []
  | _, [], some c => [c]
  | 0, _ :: _, none => []
  | 0, _ :: _, some c => [c]
  | n + 1, b :: t, cur =>
    let (r, wid) := DecodeRuneInString (b :: t)
    if f r then
      match cur with
      | some c => c :: fieldsLoop f n ((b :: t).drop wid) none
      | none => fieldsLoop f n ((b :: t).drop wid) none
    else
      match cur with
      | some c => fieldsLoop f n ((b :: t).drop wid) (some (c ++ (b :: t).take wid))
      | none => fieldsLoop f n ((b :: t).drop wid) (some ((b :: t).take wid))

/-- Go `strings.FieldsFunc`: the maximal runs of runes not satisfying `f`. -/
def FieldsFunc (s : Str) (f : Nat → Bool) : List Str :=
  fieldsLoop f s.length s none

/-- Go `strings.Fields`: `s` split around runs of white space, that is
`FieldsFunc(s, unicode.IsSpace)`. -/
def Fields (s : Str) : List Str := FieldsFunc s IsSpace

/-- The runes of `s` in the order Go's `for _, r := range s` yields them, each
with the bytes it was decoded from. -/
def chunksLoop : Nat → Str → List (Nat × Str)
  | 0, _ => []
  | _, [] => []
  | n + 1, b :: t =>
    let (r, wid) := DecodeRuneInString (b :: t)
    (r, (b :: t).take wid) :: chunksLoop n ((b :: t).drop wid)

/-- The runes of `s` with their bytes. -/
def chunks (s : Str) : List (Nat × Str) := chunksLoop s.length s

/-- The runes of `s`, as `[]rune(s)`. -/
def runes (s : Str) : List Nat := (chunks s).map Prod.fst

/-! ## `internal/db/repl.go`: `splitLine` -/

/-- Go `splitLine`: the line is trimmed; a non-empty trimmed line gives its
first field as command and, when the line is longer than the command, the
rest of the line as arguments.  `none` is a run-time panic: the index
`Fields(line)[0]` or the slice `line[len(command):]` out of range. -/
def splitLine (line : Str) : Option (Str × Str) :=
  let line := TrimSpace line
  if line.length > 0 then
    match (Fields line)[0]? with
    | none => none
    | some command =>
      if line.length > command.length then
        if command.length ≤ line.length then some (command, line.drop command.length)
        else none
      else some (command, [])
  else some ([], [])

/-- The fields cut from a list of decoded runes: the loop of `FieldsFunc` read
over the runes instead of the bytes. -/
def fieldsOfChunks (f : Nat → Bool) : List (Nat × Str) → Option Str → List Str
  | [], none => []
  | [], some c => [c]
  | (r, seg) :: l, cur =>
    if f r then
      match cur with
      | some c => c :: fieldsOfChunks f l none
      | none => fieldsOfChunks f l none
    else
      match cur with
      | some c => fieldsOfChunks f l (some (c ++ seg))
      | none => fieldsOfChunks f l (some seg)

/-- The bytes of a list of decoded runes. -/
def unchunk (l : List (Nat × Str)) : Str := (l.map Prod.snd).flatten

/-- The bytes of the leading run of non-space runes of `s`: the longest
prefix of `s`, cut between runes, that holds no white space. -/
def leadRun (s : Str) : Str :=
  unchunk ((chunks s).takeWhile (fun x => !IsSpace x.1))

/-- What follows the leading run of non-space runes of `s`. -/
def restRun (s : Str) : Str :=
  unchunk ((chunks s).dropWhile (fun x => !IsSpace x.1))

/-! ## The environment of `internal/db/repl.go`: errors, files, output, the `liner` terminal -/

/-- Go `error` values, as far as the code tells them apart: `io.EOF`, an
error reported by the operating system or a library (with what
`os.IsNotExist` answers for it and its text), and an error built by
`fmt.Errorf(format, path, cause)`. -/
inductive GoError where
  | EOF : GoError
  | sys (notExist : Bool) (text : String) : GoError
  | errorf (format : String) (path : String) (cause : GoError) : GoError
  deriving DecidableEq, Repr

/-- Go `os.IsNotExist`; `none` is the `nil` error. -/
def IsNotExist : Option GoError → Bool
  | some (GoError.sys ne _) => ne
  | _ => false

/-- One write to an output stream: a text, a format with a quoted path
(`%q`), a format with an error (`%v`), or what `flag.PrintDefaults` prints. -/
inductive Output where
  | str (text : String) : Output
  | fmtPath (format : String) (path : String) : Output
  | fmtErr (format : String) (err : GoError) : Output
  | flagDefaults : Output
  deriving DecidableEq, Repr

/-- A call made on the `liner` terminal by the read loop. -/
inductive TermCall where
  | Prompt (prompt : String) : TermCall
  | AppendHistory (item : Str) : TermCall
  deriving DecidableEq, Repr

/-- The state of a `liner.State` that the code uses: the in-memory history. -/
structure Liner where
  history : List Str
  deriving DecidableEq, Repr

/-- The constant `liner.HistoryLimit`. -/
def HistoryLimit : Nat := 1000

/-- The terminal made by `liner.NewLiner()`: no history yet. -/
def NewLiner : Liner := { history := [] }

/-- The library call `(*liner.State).AppendHistory`: an item equal to the last
entry is dropped; beyond `HistoryLimit` entries the oldest one goes. -/
def Liner.AppendHistory (s : Liner) (item : Str) : Liner :=
  if s.history.length > 0 ∧ s.history.getLast? = some item then s
  else if (s.history ++ [item]).length > HistoryLimit then
    { history := (s.history ++ [item]).drop 1 }
  else { history := s.history ++ [item] }

/-- The library call `(*liner.State).Close`: restores the terminal mode and
returns `nil`. -/
def Liner.Close (_ : Liner) : Option GoError := none

/-- The process and its surroundings: the files (`none` is a missing file), the
paths the operating system refuses to open and those on which a write fails,
what `(*liner.State).ReadHistory` makes of a file's content (the entries read
and its error), the two output streams, the status given to `os.Exit` once it
is called, whether the signal watcher goroutine has been started, and the
calls made on the terminal. -/
structure World where
  files : String → Option Str
  openErr : String → Option GoError
  writeErr : String → Option GoError
  readHistory : Str → List Str × Option GoError
  stdout : List Output
  stderr : List Output
  exit : Option Nat
  watching : Bool
  calls : List TermCall

/-- Writes to the standard output. -/
def World.print (w : World) (o : Output) : World := { w with stdout := w.stdout ++ [o] }

/-- Writes to the standard error stream. -/
def World.eprint (w : World) (o : Output) : World := { w with stderr := w.stderr ++ [o] }

/-- Records a call on the terminal. -/
def World.call (w : World) (c : TermCall) : World := { w with calls := w.calls ++ [c] }

/-- Go `os.Open(path)`: the content of the file opened for reading, or the
error. -/
def Open (path : String) (w : World) : Except GoError Str :=
  match w.openErr path with
  | some e => Except.error e
  | none =>
    match w.files path with
    | none => Except.error (GoError.sys true ("open " ++ path ++ ": no such file or directory"))
    | some content => Except.ok content

/-- Go `os.OpenFile(path, os.O_RDWR|os.O_APPEND|os.O_CREATE, 0666)`: a missing
file is created empty; the result is the world with the file open for
appending, or the error. -/
def OpenFile (path : String) (w : World) : Except GoError World :=
  match w.openErr path with
  | some e => Except.error e
  | none =>
    match w.files path with
    | none => Except.ok { w with files := fun p => if p = path then some [] else w.files p }
    | some _ => Except.ok w

/-- A write to a file opened with `O_APPEND`: the bytes go to its end. -/
def World.append (w : World) (path : String) (data : Str) : World :=
  { w with files := fun p => if p = path then some ((w.files path).getD [] ++ data) else w.files p }

/-- The loop of the library call `(*liner.State).WriteHistory` on the file at `path`:
`fmt.Fprintln(w, item)` for every item of the history, stopping at the first
write that fails. -/
def writeItems : List Str → String → World → Option GoError × World
  | [], _, w => (none, w)
  | item :: rest, path, w =>
    match w.writeErr path with
    | some e => (some e, w)
    | none => writeItems rest path (w.append path (item ++ [0x0A]))

/-- The library call `(*liner.State).WriteHistory` on the file at `path`: every entry of the
in-memory history is written, one per line. -/
def Liner.WriteHistory (s : Liner) (path : String) (w : World) : Option GoError × World :=
  writeItems s.history path w

/-! ## `internal/db/repl.go` -/

/-- The primary prompt. -/
def ps1 : String := "dl> "

/-- The continuation prompt. -/
def ps2 : String := "...     "

/-- The name of the history file. -/
def history : String := ".datalake_history"

/-- Go `Run`: `nResults` stays 0, so the deferred report of the elapsed time
prints nothing and the call prints one newline. -/
def Run (_ : Str) (w : World) : World := w.print (Output.str "\n")

/-- Go `persist`: opens the history file for appending, creating it if it is
missing, writes the whole in-memory history to it and closes the terminal.
The result is the returned error (`none` is `nil`) and the world after. -/
def persist (term : Liner) (path : String) (w : World) : Option GoError × World :=
  match OpenFile path w with
  | Except.error err =>
    (some (GoError.errorf "could not open %q to append history: %v" path err), w)
  | Except.ok w1 =>
    match term.WriteHistory path w1 with
    | (some err, w2) =>
      (some (GoError.errorf "could not write history to %q: %v" path err), w2)
    | (none, w2) => (term.Close, w2)

/-- The goroutine started by `terminal`, from the moment a signal is
delivered on its channel: it persists the history of the terminal, and ends
the process with status 1 after reporting a failure on the error stream, with
status 0 otherwise. -/
def watcher (term : Liner) (w : World) : World :=
  match persist term history w with
  | (some err, w1) =>
    { w1.eprint (Output.fmtErr "failed to properly clean up terminal: %v\n" err) with
      exit := some 1 }
  | (none, w1) => { w1 with exit := some 0 }

/-- Go `terminal`: makes the terminal, starts the signal watcher, and loads
the history file at `path` into the terminal.  The result is the terminal, the
returned error and the world after. -/
def terminal (path : String) (w : World) : Liner × Option GoError × World :=
  let term := NewLiner
  let w := { w with watching := true }
  match Open path w with
  | Except.error err => (term, some err, w)
  | Except.ok content => ({ history := (w.readHistory content).1 }, (w.readHistory content).2, w)

/-- What `term.Prompt` returns: the line and the error (`none` is `nil`). -/
structure PromptResult where
  line : Str
  err : Option GoError
  deriving DecidableEq, Repr

/-- The variables of `Repl` while its loop runs, and the world. -/
structure LoopState where
  term : Liner
  prompt : String
  code : Str
  world : World

/-- The head of the loop of `Repl`: the prompt is chosen from the code read so
far, and `term.Prompt(prompt)` is called. -/
def callPrompt (st : LoopState) : LoopState :=
  let prompt := if st.code.length = 0 then ps1 else ps2
  { st with prompt := prompt, world := st.world.call (TermCall.Prompt prompt) }

/-- The body of the loop of `Repl` once `term.Prompt` has returned `r`: the
state after, and `some e` when `Repl` returns `e` (`some none` is `return nil`),
`none` when the loop goes on. -/
def loopBody (st : LoopState) (r : PromptResult) : LoopState × Option (Option GoError) :=
  match r.err with
  | some err =>
    if err = GoError.EOF then
      ({ st with world := st.world.print (Output.str "\n") }, some none)
    else (st, some (some err))
  | none =>
    let st := { st with term := st.term.AppendHistory r.line,
                        world := st.world.call (TermCall.AppendHistory r.line) }
    let line := TrimSpace r.line
    if line.length = 0 ∨ line.head? = some 0x23 then (st, none)
    else (st, none)

/-- The loop of `Repl` over the results `term.Prompt` returns one after the
other.  When they run out the loop is waiting inside `term.Prompt`: the result
is `none`. -/
def replLoop : List PromptResult → LoopState → LoopState × Option (Option GoError)
  | [], st => (callPrompt st, none)
  | r :: rest, st =>
    match loopBody (callPrompt st) r with
    | (st1, some ret) => (st1, some ret)
    | (st1, none) => replLoop rest st1

/-- The outcome of `Repl`: `returned` is `none` while the loop waits for input,
`some e` once `Repl` has returned `e`. -/
structure ReplResult where
  returned : Option (Option GoError)
  state : LoopState

/-- The start of `Repl`, up to its loop: `terminal(history)` is called, a
history file reported missing is announced on the standard output, and the
variables `prompt` and `code` are set. -/
def replStart (w : World) : LoopState :=
  match terminal history w with
  | (term, err, w1) =>
    { term := term, prompt := ps1, code := [],
      world := if IsNotExist err then
          w1.print (Output.fmtPath "creating new history file: %q\n" history)
        else w1 }

/-- Go `Repl` (its argument `cfg` is not used), over the results `term.Prompt`
returns.  The deferred `persist(term, history)` runs when `Repl` returns; what
it returns is dropped. -/
def Repl (w : World) (input : List PromptResult) : ReplResult :=
  match replLoop input (replStart w) with
  | (st, none) => { returned := none, state := st }
  | (st, some ret) =>
    { returned := some ret, state := { st with world := (persist st.term history st.world).2 } }

/-! ## The two ways out of the shell, side by side -/

/-- Where `Repl` stands: waiting in `term.Prompt`, inside the deferred
`persist`, or returned. -/
inductive ReplAt where
  | reading : ReplAt
  | flushing : ReplAt
  | returned : ReplAt
  deriving DecidableEq, Repr

/-- Where the signal watcher stands: waiting on its channel, inside `persist`,
or past `os.Exit`. -/
inductive WatcherAt where
  | waiting : WatcherAt
  | flushing : WatcherAt
  | exited : WatcherAt
  deriving DecidableEq, Repr

/-- The two goroutines of a session with the number of calls of `persist` and
of `os.Exit` made so far. -/
structure Shutdown where
  repl : ReplAt
  sig : WatcherAt
  persistCalls : Nat
  exitCalls : Nat
  deriving DecidableEq, Repr

/-- A step of one of the two goroutines: `Repl` reads `io.EOF` and enters the
deferred `persist`; `Repl` leaves `persist` and returns; the watcher receives a
signal and enters `persist`; the watcher leaves `persist` and calls `os.Exit`. -/
inductive Move where
  | eof : Move
  | replReturn : Move
  | signal : Move
  | watcherExit : Move
  deriving DecidableEq, Repr

/-- The session at the start: `Repl` reads, the watcher waits. -/
def Shutdown.start : Shutdown :=
  { repl := ReplAt.reading, sig := WatcherAt.waiting, persistCalls := 0, exitCalls := 0 }

/-- One step.  Nothing in the code makes a goroutine wait for the other, so a
step depends on the place of its own goroutine only, except that no goroutine
runs once `os.Exit` has been called.  `none`: the step cannot be taken. -/
def Shutdown.step (s : Shutdown) : Move → Option Shutdown
  | Move.eof =>
    if s.sig ≠ WatcherAt.exited ∧ s.repl = ReplAt.reading then
      some { s with repl := ReplAt.flushing, persistCalls := s.persistCalls + 1 }
    else none
  | Move.replReturn =>
    if s.sig ≠ WatcherAt.exited ∧ s.repl = ReplAt.flushing then
      some { s with repl := ReplAt.returned }
    else none
  | Move.signal =>
    if s.sig = WatcherAt.waiting then
      some { s with sig := WatcherAt.flushing, persistCalls := s.persistCalls + 1 }
    else none
  | Move.watcherExit =>
    if s.sig = WatcherAt.flushing then
      some { s with sig := WatcherAt.exited, exitCalls := s.exitCalls + 1 }
    else none

/-- A schedule: the steps taken one after the other. -/
def Shutdown.run : List Move → Shutdown → Option Shutdown
  | [], s => some s
  | m :: rest, s =>
    match s.step m with
    | none => none
    | some s1 => Shutdown.run rest s1

/-! ## `site-intelligence.go` -/

/-- The command-line flags after `flag.Parse`. -/
structure Flags where
  configFile : String
  urlFile : String
  initOption : Bool
  urlDepth : Int
  deriving DecidableEq, Repr

/-- The fields of `config.Config` that the code reads and writes. -/
structure Config where
  UrlFile : String
  UrlDepth : Int
  deriving DecidableEq, Repr

/-- A line logged through `glog`. -/
inductive LogLine where
  | info (text : String) : LogLine
  | error (err : GoError) : LogLine
  | fatal (text : String) : LogLine
  | fatalErr (err : GoError) : LogLine
  deriving DecidableEq, Repr

/-- What `main` is run with: the arguments `os.Args`, the build variables, what
`flag.Parse` makes of the arguments after the command (the flags, or the status
it ends the process with), the error of `os.Stat` for a path, the environment
variables, and the results of `config.Load`, `runtime.NumCPU` and `db.Init`. -/
structure Sys where
  Args : List String
  Version : String
  BuildDate : String
  parse : List String → Except Nat Flags
  stat : String → Option GoError
  getenv : String → String
  load : String → Except GoError Config
  numCPU : Nat
  dbInit : Config → Option GoError

/-- What the process has written. -/
structure Proc where
  stdout : List Output
  stderr : List Output
  log : List LogLine
  deriving DecidableEq, Repr

/-- The text printed by `usage` before the flag defaults. -/
def usageText : String :=
  "\nUsage:\n  site-intelligence COMMAND [flags]\n\nCommands:\n  init      Create an empty database.\n  version   Version information.\n\nFlags:\n"

/-- Go `usage`. -/
def usage (p : Proc) : Proc :=
  { p with stderr := p.stderr ++ [Output.str usageText, Output.flagDefaults] }

/-- The exit status of a process ended by `glog.Fatalln`. -/
def fatalStatus : Nat := 255

/-- Go `configFrom`: the configuration, or the status the process ends with when
`glog.Fatalln` is reached. -/
def configFrom (sys : Sys) (flags : Flags) (file : String) (p : Proc) : Proc × Except Nat Config :=
  let found : Except Proc String :=
    if file ≠ "" then
      if IsNotExist (sys.stat file) then
        Except.error { p with log := p.log ++
          [LogLine.fatal ("Cannot find specified configuration file " ++ file ++ " , aborting.\n")] }
      else Except.ok file
    else if sys.stat (sys.getenv "DL_SITE_INTELLIGENCE_CFG") = none then
      Except.ok (sys.getenv "DL_SITE_INTELLIGENCE_CFG")
    else if sys.stat "/etc/dl_site_intelligence.cfg" = none then
      Except.ok "/etc/dl_site_intelligence.cfg"
    else Except.ok file
  match found with
  | Except.error p1 => (p1, Except.error fatalStatus)
  | Except.ok file1 =>
    let p1 := if file1 = "" then
        { p with log := p.log ++ [LogLine.info
          "Couldn't find a config file in either $DL_SITE_INTELLIGENCE_CFG or /etc/dl_site_intelligence.cfg. Going by flag defaults only.\n"] }
      else p
    match sys.load file1 with
    | Except.error err => ({ p1 with log := p1.log ++ [LogLine.fatalErr err] }, Except.error fatalStatus)
    | Except.ok cfg =>
      let cfg1 := if cfg.UrlFile = "" then { cfg with UrlFile := flags.urlFile } else cfg
      let cfg2 := if cfg1.UrlDepth = 0 then { cfg1 with UrlDepth := flags.urlDepth } else cfg1
      (p1, Except.ok cfg2)

/-- Go `main`: what the process has written and its exit status.  A `main` that
returns ends the process with status 0, `os.Exit(n)` with status `n`, a
run-time panic with status 2. -/
def main (sys : Sys) : Proc × Nat :=
  let p0 : Proc := { stdout := [], stderr := [], log := [] }
  if sys.Args.length = 1 then
    (usage { p0 with stderr := p0.stderr ++
      [Output.str "site-intelligence is a discovery tool for the deep web.\n"] }, 1)
  else
    match sys.Args with
    | _ :: cmd :: rest =>
      match sys.parse rest with
      | Except.error status => (p0, status)
      | Except.ok flags =>
        let buildString :=
          if sys.Version ≠ "" then "site-intelligence " ++ sys.Version ++ " built " ++ sys.BuildDate
          else ""
        let p1 := if sys.Version ≠ "" then
            { p0 with log := p0.log ++ [LogLine.info (buildString ++ "\n")] }
          else p0
        match configFrom sys flags flags.configFile p1 with
        | (p2, Except.error status) => (p2, status)
        | (p2, Except.ok cfg) =>
          let p3 := if sys.getenv "GOMAXPROCS" = "" then
              { p2 with log := p2.log ++
                [LogLine.info ("Setting GOMAXPROCS to " ++ toString sys.numCPU ++ "\n")] }
            else
              { p2 with log := p2.log ++ [LogLine.info
                ("GOMAXPROCS currently " ++ sys.getenv "GOMAXPROCS" ++ "  -- not adjusting\n")] }
          if cmd = "version" then
            let p4 := if sys.Version ≠ "" then
                { p3 with stdout := p3.stdout ++ [Output.str (buildString ++ "\n")] }
              else { p3 with stdout := p3.stdout ++ [Output.str "Site-intelligence snapshot\n"] }
            ({ p4 with log := p4.log ++ [LogLine.info "Exiting\n"] }, 0)
          else if cmd = "init" then
            match sys.dbInit cfg with
            | some err => ({ p3 with log := p3.log ++ [LogLine.error err] }, 0)
            | none => (p3, 0)
          else
            (usage { p3 with stdout := p3.stdout ++ [Output.str ("No command " ++ cmd ++ "\n")] }, 0)
    | _ => (p0, 2)

/-! ## Auxiliary notions used in the statements -/

/-- The text `WriteHistory` writes for a history: every entry followed by a
newline. -/
def historyText (h : List Str) : Str := (h.map (fun item => item ++ [0x0A])).flatten

/-- The prompts shown by the calls made on the terminal, in order. -/
def promptsShown : List TermCall → List String
  | [] => []
  | TermCall.Prompt p :: rest => p :: promptsShown rest
  | TermCall.AppendHistory _ :: rest => promptsShown rest

/-- The loop state after the loop has taken the given results of `term.Prompt`
one after the other. -/
def afterResults (st : LoopState) (rs : List PromptResult) : LoopState :=
  rs.foldl (fun s r => (loopBody (callPrompt s) r).1) st

/-- A world with no file, in which every open and write succeeds and nothing
has been written yet. -/
def freshWorld : World :=
  { files := fun _ => none, openErr := fun _ => none, writeErr := fun _ => none,
    readHistory := fun _ => ([], none), stdout := [], stderr := [], exit := none,
    watching := false, calls := [] }

/-- A world in which the history file cannot be opened. -/
def lockedWorld : World :=
  { freshWorld with
    openErr := fun p =>
      if p = history then some (GoError.sys false "open .datalake_history: permission denied")
      else none }

/-- A run of the program with flags and configuration in order, and a
database initialization that fails. -/
def plainSys (args : List String) : Sys :=
  { Args := args, Version := "", BuildDate := "today",
    parse := fun _ => Except.ok { configFile := "", urlFile := "", initOption := false, urlDepth := 1 },
    stat := fun _ => some (GoError.sys true "no such file or directory"),
    getenv := fun _ => "",
    load := fun _ => Except.ok { UrlFile := "", UrlDepth := 0 },
    numCPU := 4,
    dbInit := fun _ => some (GoError.sys false "cannot create database") }

/-! ## Lemmas on the decoder and on the runes of a string -/

theorem decode_nil : DecodeRuneInString [] = (RuneError, 0) := rfl

theorem decode_width_pos (s : Str) (h : s ≠ []) : 1 ≤ (DecodeRuneInString s).2 := by
  cases s with
  | nil => exact absurd rfl h
  | cons b t =>
    simp only [DecodeRuneInString]
    repeat' split
    all_goals simp

theorem decode_width_le (s : Str) : (DecodeRuneInString s).2 ≤ s.length := by
  cases s with
  | nil => simp [DecodeRuneInString]
  | cons b t =>
    simp only [DecodeRuneInString]
    repeat' split
    all_goals simp


theorem decode_append (p q : Str) (hp : p ≠ [])
    (hw : (DecodeRuneInString (p ++ q)).2 ≤ p.length) :
    DecodeRuneInString (p ++ q) = DecodeRuneInString p := by
  rcases p with _ | ⟨b0, _ | ⟨b1, _ | ⟨b2, _ | ⟨b3, p⟩⟩⟩⟩
  · exact absurd rfl hp
  all_goals
    rcases q with _ | ⟨c1, _ | ⟨c2, _ | ⟨c3, q⟩⟩⟩ <;>
    simp only [List.cons_append, List.nil_append, List.append_nil, DecodeRuneInString] at hw ⊢ <;>
    revert hw <;>
    repeat' split
  all_goals simp

theorem decode_append_of_ne (p q : Str) (h : (DecodeRuneInString p).1 ≠ RuneError) :
    DecodeRuneInString (p ++ q) = DecodeRuneInString p := by
  rcases p with _ | ⟨b0, _ | ⟨b1, _ | ⟨b2, _ | ⟨b3, p⟩⟩⟩⟩
  · exact absurd rfl h
  all_goals
    rcases q with _ | ⟨c1, _ | ⟨c2, _ | ⟨c3, q⟩⟩⟩ <;>
    simp only [List.cons_append, List.nil_append, List.append_nil, DecodeRuneInString] at h ⊢ <;>
    revert h <;>
    repeat' split
  all_goals simp

theorem chunksLoop_nil (n : Nat) : chunksLoop n [] = [] := by
  cases n <;> rfl

theorem chunksLoop_succ (n : Nat) (b : Fin 256) (t : Str) :
    chunksLoop (n + 1) (b :: t) =
      ((DecodeRuneInString (b :: t)).1, (b :: t).take (DecodeRuneInString (b :: t)).2) ::
        chunksLoop n ((b :: t).drop (DecodeRuneInString (b :: t)).2) := rfl

theorem length_drop_decode (s : Str) (h : s ≠ []) :
    (s.drop (DecodeRuneInString s).2).length < s.length := by
  have h1 := decode_width_pos s h
  have h2 : 0 < s.length := List.length_pos.mpr h
  rw [List.length_drop]
  omega

theorem chunksLoop_fuel (n : Nat) : ∀ (m : Nat) (s : Str), s.length ≤ n → s.length ≤ m →
    chunksLoop n s = chunksLoop m s := by
  induction n with
  | zero =>
    intro m s h _
    have : s = [] := List.eq_nil_of_length_eq_zero (Nat.le_zero.mp h)
    subst this
    rw [chunksLoop_nil, chunksLoop_nil]
  | succ n ih =>
    intro m s hn hm
    cases s with
    | nil => rw [chunksLoop_nil, chunksLoop_nil]
    | cons b t =>
      cases m with
      | zero => simp at hm
      | succ m =>
        rw [chunksLoop_succ, chunksLoop_succ]
        have hlt := length_drop_decode (b :: t) (by simp)
        rw [ih m _ (by omega) (by omega)]

theorem chunks_nil : chunks [] = [] := rfl

theorem chunks_cons (s : Str) (h : s ≠ []) :
    chunks s = ((DecodeRuneInString s).1, s.take (DecodeRuneInString s).2) ::
      chunks (s.drop (DecodeRuneInString s).2) := by
  cases s with
  | nil => exact absurd rfl h
  | cons b t =>
    have hlt := length_drop_decode (b :: t) (by simp)
    unfold chunks
    rw [List.length_cons, chunksLoop_succ]
    rw [chunksLoop_fuel t.length _ _ (by simp at hlt ⊢; omega) (le_refl _)]

/-- Induction over a string rune by rune, as Go's `range` reads it. -/
theorem rune_induction {P : Str → Prop} (hnil : P [])
    (hstep : ∀ s : Str, s ≠ [] → P (s.drop (DecodeRuneInString s).2) → P s) :
    ∀ s : Str, P s := by
  have key : ∀ (n : Nat) (s : Str), s.length ≤ n → P s := by
    intro n
    induction n with
    | zero =>
      intro s h
      have : s = [] := List.eq_nil_of_length_eq_zero (Nat.le_zero.mp h)
      subst this
      exact hnil
    | succ n ih =>
      intro s h
      by_cases hs : s = []
      · subst hs; exact hnil
      · have hlt := length_drop_decode s hs
        exact hstep s hs (ih _ (by omega))
  intro s
  exact key s.length s (le_refl _)

theorem unchunk_nil : unchunk [] = [] := rfl

theorem unchunk_cons (r : Nat) (seg : Str) (l : List (Nat × Str)) :
    unchunk ((r, seg) :: l) = seg ++ unchunk l := by
  simp [unchunk]

theorem unchunk_append (l₁ l₂ : List (Nat × Str)) :
    unchunk (l₁ ++ l₂) = unchunk l₁ ++ unchunk l₂ := by
  simp [unchunk]

theorem unchunk_chunks : ∀ s : Str, unchunk (chunks s) = s := by
  apply rune_induction
  · rfl
  · intro s h ih
    rw [chunks_cons s h, unchunk_cons, ih, List.take_append_drop]

theorem fieldsLoop_eq (f : Nat → Bool) (n : Nat) : ∀ (s : Str) (cur : Option Str),
    s.length ≤ n → fieldsLoop f n s cur = fieldsOfChunks f (chunksLoop n s) cur := by
  induction n with
  | zero =>
    intro s cur h
    have : s = [] := List.eq_nil_of_length_eq_zero (Nat.le_zero.mp h)
    subst this
    cases cur <;> rfl
  | succ n ih =>
    intro s cur h
    cases s with
    | nil => cases cur <;> rfl
    | cons b t =>
      have hlt := length_drop_decode (b :: t) (by simp)
      have hlen : ((b :: t).drop (DecodeRuneInString (b :: t)).2).length ≤ n := by
        simp at h hlt ⊢; omega
      rw [chunksLoop_succ]
      simp only [fieldsLoop, fieldsOfChunks]
      split <;> cases cur <;> simp only [ih _ _ hlen]

theorem FieldsFunc_eq (s : Str) (f : Nat → Bool) :
    FieldsFunc s f = fieldsOfChunks f (chunks s) none :=
  fieldsLoop_eq f s.length s none (le_refl _)


theorem fieldsOfChunks_some (f : Nat → Bool) : ∀ (l : List (Nat × Str)) (c : Str),
    ∃ tl, fieldsOfChunks f l (some c) =
      (c ++ unchunk (l.takeWhile (fun x => !f x.1))) :: tl := by
  intro l
  induction l with
  | nil => intro c; exact ⟨[], by simp [fieldsOfChunks, unchunk]⟩
  | cons x l ih =>
    intro c
    obtain ⟨r, seg⟩ := x
    by_cases h : f r = true
    · exact ⟨fieldsOfChunks f l none, by simp [fieldsOfChunks, h, unchunk]⟩
    · obtain ⟨tl, htl⟩ := ih (c ++ seg)
      refine ⟨tl, ?_⟩
      simp only [fieldsOfChunks, h, Bool.false_eq_true, if_false]
      rw [htl, List.takeWhile_cons_of_pos (by simp [h]), unchunk_cons, List.append_assoc]

theorem fieldsOfChunks_none (f : Nat → Bool) : ∀ (l : List (Nat × Str)),
    l.dropWhile (fun x => f x.1) ≠ [] →
    ∃ tl, fieldsOfChunks f l none =
      unchunk ((l.dropWhile (fun x => f x.1)).takeWhile (fun x => !f x.1)) :: tl := by
  intro l
  induction l with
  | nil => intro h; exact absurd rfl h
  | cons x l ih =>
    intro hne
    obtain ⟨r, seg⟩ := x
    by_cases h : f r = true
    · rw [List.dropWhile_cons_of_pos (by simpa using h)] at hne ⊢
      obtain ⟨tl, htl⟩ := ih hne
      exact ⟨tl, by simp only [fieldsOfChunks, h, if_true]; exact htl⟩
    · rw [List.dropWhile_cons_of_neg (by simpa using h)]
      obtain ⟨tl, htl⟩ := fieldsOfChunks_some f l seg
      refine ⟨tl, ?_⟩
      simp only [fieldsOfChunks, h, Bool.false_eq_true, if_false]
      rw [htl, List.takeWhile_cons_of_pos (by simp [h]), unchunk_cons]

theorem take_decode_ne_nil (s : Str) (h : s ≠ []) : s.take (DecodeRuneInString s).2 ≠ [] := by
  have h1 := decode_width_pos s h
  cases s with
  | nil => exact absurd rfl h
  | cons b t =>
    intro hc
    have := congrArg List.length hc
    simp at this
    omega

theorem length_take_decode (s : Str) : (s.take (DecodeRuneInString s).2).length =
    (DecodeRuneInString s).2 := by
  rw [List.length_take]
  exact Nat.min_eq_left (decode_width_le s)

theorem chunks_eq_nil_iff (s : Str) : chunks s = [] ↔ s = [] := by
  constructor
  · intro h
    by_contra hs
    rw [chunks_cons s hs] at h
    exact absurd h (by simp)
  · intro h; subst h; rfl

/-- Decoding a tail of the decoded runes of `s` again gives the same runes. -/
theorem chunks_unchunk_suffix : ∀ (s : Str) (d : List (Nat × Str)), d <:+ chunks s →
    chunks (unchunk d) = d := by
  apply rune_induction
  · intro d hd
    rw [chunks_nil, List.suffix_nil] at hd
    subst hd; rfl
  · intro s hs ih d hd
    rw [chunks_cons s hs, List.suffix_cons_iff] at hd
    rcases hd with hd | hd
    · rw [hd, ← chunks_cons s hs, unchunk_chunks]
    · exact ih d hd

theorem chunks_head_rune (s : Str) (r : Nat) (seg : Str) (l : List (Nat × Str))
    (h : chunks s = (r, seg) :: l) : (DecodeRuneInString s).1 = r ∧ s ≠ [] := by
  have hs : s ≠ [] := by
    intro hc; subst hc; rw [chunks_nil] at h; exact absurd h (by simp)
  rw [chunks_cons s hs] at h
  simp only [List.cons.injEq, Prod.mk.injEq] at h
  exact ⟨h.1.1, hs⟩

/-- Decoding the leading run of runes satisfying `p` on its own gives those runes. -/
theorem chunks_unchunk_takeWhile (p : Nat × Str → Bool) : ∀ (s : Str),
    chunks (unchunk ((chunks s).takeWhile p)) = (chunks s).takeWhile p := by
  apply rune_induction
  · rfl
  · intro s hs ih
    rw [chunks_cons s hs]
    by_cases hp : p ((DecodeRuneInString s).1, s.take (DecodeRuneInString s).2) = true
    · rw [List.takeWhile_cons_of_pos hp, unchunk_cons]
      set seg := s.take (DecodeRuneInString s).2 with hseg
      set s' := s.drop (DecodeRuneInString s).2 with hs'
      set F := unchunk ((chunks s').takeWhile p) with hF
      set R := unchunk ((chunks s').dropWhile p) with hR
      have hsplit : s' = F ++ R := by
        rw [hF, hR, ← unchunk_append, List.takeWhile_append_dropWhile, unchunk_chunks]
      have hsegne : seg ≠ [] := take_decode_ne_nil s hs
      have hseglen : seg.length = (DecodeRuneInString s).2 := length_take_decode s
      have hs_eq : s = (seg ++ F) ++ R := by
        rw [List.append_assoc, ← hsplit, hseg, hs', List.take_append_drop]
      have hdec : DecodeRuneInString (seg ++ F) = DecodeRuneInString s := by
        have := decode_append (seg ++ F) R (by simp [hsegne])
          (by rw [← hs_eq, List.length_append]; omega)
        rw [← this, ← hs_eq]
      have hne : seg ++ F ≠ [] := by simp [hsegne]
      rw [chunks_cons _ hne, hdec, ← hseglen, List.take_left, List.drop_left, ih]
    · rw [List.takeWhile_cons_of_neg hp]
      rfl


theorem indexFuncLoop_spec (s : Str) (f : Nat → Bool) (n : Nat) : ∀ start : Nat,
    start ≤ s.length → s.length - start ≤ n →
    (match indexFuncLoop s f false n start with
      | none => []
      | some i => s.drop i) =
      unchunk ((chunks (s.drop start)).dropWhile (fun x => f x.1)) := by
  induction n with
  | zero =>
    intro start h1 h2
    have hd : s.drop start = [] := List.drop_eq_nil_of_le (by omega)
    simp [indexFuncLoop, hd, chunks_nil, unchunk_nil]
  | succ n ih =>
    intro start h1 h2
    by_cases hlt : start < s.length
    · have hne : s.drop start ≠ [] := by
        intro hc
        have := congrArg List.length hc
        simp at this
        omega
      have hw1 := decode_width_pos _ hne
      have hw2 := decode_width_le (s.drop start)
      rw [List.length_drop] at hw2
      rw [chunks_cons _ hne]
      by_cases hf : f (DecodeRuneInString (s.drop start)).1 = true
      · rw [List.dropWhile_cons_of_pos (by simpa using hf), List.drop_drop]
        rw [← ih (start + (DecodeRuneInString (s.drop start)).2) (by omega) (by omega)]
        simp [indexFuncLoop, hlt, hf]
      · rw [List.dropWhile_cons_of_neg (by simpa using hf), ← chunks_cons _ hne, unchunk_chunks]
        simp [indexFuncLoop, hlt, hf]
    · have hd : s.drop start = [] := List.drop_eq_nil_of_le (by omega)
      simp [indexFuncLoop, hlt, hd, chunks_nil, unchunk_nil]

/-- The function `TrimLeftFunc` drops the leading runes satisfying `f` and nothing else. -/
theorem TrimLeftFunc_eq (s : Str) (f : Nat → Bool) :
    TrimLeftFunc s f = unchunk ((chunks s).dropWhile (fun x => f x.1)) := by
  have := indexFuncLoop_spec s f s.length 0 (Nat.zero_le _) (by omega)
  rw [List.drop_zero] at this
  rw [← this]
  rfl

theorem dropWhile_head_not {α : Type} (p : α → Bool) : ∀ (l : List α) (a : α) (d : List α),
    l.dropWhile p = a :: d → p a = false := by
  intro l
  induction l with
  | nil => intro a d h; simp at h
  | cons x l ih =>
    intro a d h
    by_cases hx : p x = true
    · rw [List.dropWhile_cons_of_pos hx] at h
      exact ih a d h
    · rw [List.dropWhile_cons_of_neg hx] at h
      simp only [List.cons.injEq] at h
      rw [← h.1]
      simpa using hx

/-- What follows the leading run of runes satisfying `p` is empty or starts
with a rune that does not satisfy `p`. -/
theorem unchunk_dropWhile_head (p : Nat × Str → Bool) (s : Str) :
    unchunk ((chunks s).dropWhile p) = [] ∨
    ∃ r seg d, (chunks s).dropWhile p = (r, seg) :: d ∧ p (r, seg) = false ∧
      (DecodeRuneInString (unchunk ((chunks s).dropWhile p))).1 = r ∧
      chunks (unchunk ((chunks s).dropWhile p)) = (r, seg) :: d := by
  rcases hd : (chunks s).dropWhile p with _ | ⟨⟨r, seg⟩, d⟩
  · left; rfl
  · right
    have hsuf : (r, seg) :: d <:+ chunks s := hd ▸ List.dropWhile_suffix p
    have hch := chunks_unchunk_suffix s _ hsuf
    exact ⟨r, seg, d, rfl, dropWhile_head_not p _ _ _ hd, (chunks_head_rune _ _ _ _ hch).1, hch⟩

theorem TrimLeftFunc_head (s : Str) (f : Nat → Bool) :
    TrimLeftFunc s f = [] ∨ f (DecodeRuneInString (TrimLeftFunc s f)).1 = false := by
  rw [TrimLeftFunc_eq]
  rcases unchunk_dropWhile_head (fun x => f x.1) s with h | ⟨r, seg, d, _, h2, h3, _⟩
  · left; exact h
  · right; rw [h3]; exact h2

theorem TrimRightFunc_take (s : Str) (f : Nat → Bool) :
    ∃ k, TrimRightFunc s f = s.take k := by
  unfold TrimRightFunc
  split
  · split
    · exact ⟨_, rfl⟩
    · exact ⟨_, rfl⟩
  · exact ⟨0, rfl⟩

theorem IsSpace_RuneError : IsSpace RuneError = false := by decide

/-- A trimmed line is empty or starts with a rune that is not white space. -/
theorem TrimSpace_head (s : Str) :
    TrimSpace s = [] ∨ IsSpace (DecodeRuneInString (TrimSpace s)).1 = false := by
  by_cases ht : TrimSpace s = []
  · left; exact ht
  · right
    unfold TrimSpace TrimFunc at ht ⊢
    obtain ⟨k, hk⟩ := TrimRightFunc_take (TrimLeftFunc s IsSpace) IsSpace
    rw [hk] at ht ⊢
    set u := TrimLeftFunc s IsSpace with hu
    by_contra hsp
    have hsp' : IsSpace (DecodeRuneInString (u.take k)).1 = true := by simpa using hsp
    have hne : (DecodeRuneInString (u.take k)).1 ≠ RuneError := by
      intro hc
      rw [hc, IsSpace_RuneError] at hsp'
      exact absurd hsp' (by simp)
    have hdec := decode_append_of_ne (u.take k) (u.drop k) hne
    rw [List.take_append_drop] at hdec
    rcases TrimLeftFunc_head s IsSpace with h | h
    · rw [← hu] at h
      rw [h] at ht
      simp at ht
    · rw [← hu, hdec, hsp'] at h
      exact absurd h (by simp)


theorem leadRun_append_restRun (s : Str) : leadRun s ++ restRun s = s := by
  unfold leadRun restRun
  rw [← unchunk_append, List.takeWhile_append_dropWhile, unchunk_chunks]

theorem leadRun_nil : leadRun [] = [] := rfl

theorem restRun_nil : restRun [] = [] := rfl

/-- A string that starts with a rune that is not white space has the leading
run of non-space runes as its first field. -/
theorem Fields_head (t : Str) (ht : t ≠ [])
    (hsp : IsSpace (DecodeRuneInString t).1 = false) :
    ∃ tl, Fields t = leadRun t :: tl := by
  have hdw : (chunks t).dropWhile (fun x => IsSpace x.1) = chunks t := by
    rw [chunks_cons t ht, List.dropWhile_cons_of_neg (by simp [hsp])]
  have hne : (chunks t).dropWhile (fun x => IsSpace x.1) ≠ [] := by
    rw [hdw]
    exact fun h => ht ((chunks_eq_nil_iff t).mp h)
  obtain ⟨tl, htl⟩ := fieldsOfChunks_none IsSpace (chunks t) hne
  refine ⟨tl, ?_⟩
  unfold Fields
  rw [FieldsFunc_eq, htl, hdw]
  rfl

theorem leadRun_ne_nil (t : Str) (ht : t ≠ [])
    (hsp : IsSpace (DecodeRuneInString t).1 = false) : leadRun t ≠ [] := by
  unfold leadRun
  rw [chunks_cons t ht, List.takeWhile_cons_of_pos (by simp [hsp]), unchunk_cons]
  have := take_decode_ne_nil t ht
  simp [this]

/-- What `splitLine` returns, for every line. -/
theorem splitLine_eq (s : Str) :
    splitLine s = some (leadRun (TrimSpace s), restRun (TrimSpace s)) := by
  by_cases ht : TrimSpace s = []
  · simp [splitLine, ht, leadRun_nil, restRun_nil]
  · have hsp : IsSpace (DecodeRuneInString (TrimSpace s)).1 = false := by
      rcases TrimSpace_head s with h | h
      · exact absurd h ht
      · exact h
    obtain ⟨tl, htl⟩ := Fields_head _ ht hsp
    have hsplit := leadRun_append_restRun (TrimSpace s)
    have hlen : (TrimSpace s).length = (leadRun (TrimSpace s)).length +
        (restRun (TrimSpace s)).length := by
      rw [← List.length_append, hsplit]
    have hpos : 0 < (TrimSpace s).length := List.length_pos.mpr ht
    have hdrop : (TrimSpace s).drop (leadRun (TrimSpace s)).length = restRun (TrimSpace s) := by
      have key := List.drop_left (leadRun (TrimSpace s)) (restRun (TrimSpace s))
      rw [hsplit] at key
      exact key
    simp only [splitLine, htl, gt_iff_lt, hpos, if_true, List.getElem?_cons_zero]
    by_cases hgt : (leadRun (TrimSpace s)).length < (TrimSpace s).length
    · simp only [hgt, if_true, hdrop]
      rw [if_pos (by omega)]
    · simp only [hgt, if_false]
      have : restRun (TrimSpace s) = [] := List.eq_nil_of_length_eq_zero (by omega)
      rw [this]

theorem takeWhile_extends_take {α : Type} (p : α → Bool) : ∀ (l : List α) (k : Nat),
    (∀ x ∈ l.take k, p x = true) → ∃ m, l.takeWhile p = l.take k ++ m := by
  intro l
  induction l with
  | nil => intro k _; exact ⟨[], by simp⟩
  | cons a l ih =>
    intro k h
    cases k with
    | zero => exact ⟨(a :: l).takeWhile p, by simp⟩
    | succ k =>
      have ha : p a = true := h a (by simp)
      obtain ⟨m, hm⟩ := ih k (fun x hx => h x (by simp [hx]))
      exact ⟨m, by rw [List.takeWhile_cons_of_pos ha, hm]; simp⟩

theorem runes_leadRun (s : Str) : ∀ r ∈ runes (leadRun s), IsSpace r = false := by
  intro r hr
  unfold runes leadRun at hr
  rw [chunks_unchunk_takeWhile] at hr
  obtain ⟨x, hx, hxr⟩ := List.mem_map.mp hr
  have := (List.mem_takeWhile_imp hx)
  rw [← hxr]
  simpa using this

/-- The leading run is the longest space-free prefix cut between runes. -/
theorem leadRun_longest (s : Str) (k : Nat)
    (h : ∀ x ∈ (chunks s).take k, IsSpace x.1 = false) :
    (unchunk ((chunks s).take k)).length ≤ (leadRun s).length := by
  obtain ⟨m, hm⟩ := takeWhile_extends_take (fun x => !IsSpace x.1) (chunks s) k
    (fun x hx => by simp [h x hx])
  unfold leadRun
  rw [hm, unchunk_append, List.length_append]
  omega

theorem restRun_head (s : Str) :
    restRun s = [] ∨ IsSpace (DecodeRuneInString (restRun s)).1 = true := by
  unfold restRun
  rcases unchunk_dropWhile_head (fun x => !IsSpace x.1) s with h | ⟨r, seg, d, _, h2, h3, _⟩
  · left; exact h
  · right; rw [h3]; simpa using h2


theorem leadInfo_range (x sz lo hi : Nat) (h : leadInfo x = some (sz, lo, hi)) :
    0xC2 ≤ x ∧ 0x80 ≤ lo ∧ hi ≤ 0xBF ∧ 2 ≤ sz ∧ sz ≤ 4 := by
  unfold leadInfo at h
  split_ifs at h <;> simp at h <;> omega

/-- Every byte of a multi-byte rune after the first is a continuation byte. -/
theorem decode_cont (s : Str) (i : Nat) (h1 : 1 ≤ i) (h2 : i < (DecodeRuneInString s).2) :
    ∃ b, s[i]? = some b ∧ 0x80 ≤ b.val ∧ b.val ≤ 0xBF := by
  rcases s with _ | ⟨b0, t⟩
  · simp [DecodeRuneInString] at h2
  · rcases hli : leadInfo b0.val with _ | ⟨sz, lo, hi⟩
    · simp only [DecodeRuneInString, hli] at h2
      split_ifs at h2 <;> simp at h2 <;> omega
    · have hr := leadInfo_range _ _ _ _ hli
      rcases t with _ | ⟨b1, _ | ⟨b2, _ | ⟨b3, t⟩⟩⟩ <;>
        simp only [DecodeRuneInString, hli] at h2 <;>
        split_ifs at h2 <;> simp at h2 <;>
        first
          | omega
          | (have hi : i = 1 ∨ i = 2 ∨ i = 3 := by omega
             rcases hi with hi | hi | hi <;> subst hi <;> simp <;> omega)

theorem decode_start (b : Fin 256) (t : Str)
    (h : (DecodeRuneInString (b :: t)).1 ≠ RuneError) : b.val < 0x80 ∨ 0xC0 ≤ b.val := by
  by_cases hb : b.val < 0x80
  · left; exact hb
  · right
    rcases hli : leadInfo b.val with _ | ⟨sz, lo, hi⟩
    · simp [DecodeRuneInString, hli, RuneSelf, hb] at h
    · have := leadInfo_range _ _ _ _ hli
      omega

/-- A rune never runs into a following byte that is not a continuation byte. -/
theorem decode_width_le_of_start (p w : Str) (hp : p ≠ [])
    (hw : ∀ b, w.head? = some b → b.val < 0x80 ∨ 0xC0 ≤ b.val) :
    (DecodeRuneInString (p ++ w)).2 ≤ p.length := by
  by_contra hlt
  have hpos : 1 ≤ p.length := List.length_pos.mpr hp
  obtain ⟨b, hb, hb1, hb2⟩ := decode_cont (p ++ w) p.length hpos (by omega)
  rw [List.getElem?_append_right (le_refl _), Nat.sub_self] at hb
  have hh : w.head? = some b := by
    cases w with
    | nil => simp at hb
    | cons c w => simpa using hb
  rcases hw b hh with h | h <;> omega

theorem chunks_append_of_start (w : Str)
    (hw : ∀ b, w.head? = some b → b.val < 0x80 ∨ 0xC0 ≤ b.val) :
    ∀ p : Str, chunks (p ++ w) = chunks p ++ chunks w := by
  apply rune_induction
  · simp [chunks_nil]
  · intro p hp ih
    have hle := decode_width_le_of_start p w hp hw
    have hdec := decode_append p w hp hle
    have hne : p ++ w ≠ [] := by simp [hp]
    rw [chunks_cons _ hne, chunks_cons p hp, hdec]
    have hwid := decode_width_le p
    rw [List.take_append_of_le_length hwid, List.drop_append_of_le_length hwid, ih]
    rfl

theorem head_start_of_spaces (w : Str) (h : ∀ x ∈ chunks w, IsSpace x.1 = true) :
    ∀ b, w.head? = some b → b.val < 0x80 ∨ 0xC0 ≤ b.val := by
  intro b hb
  cases w with
  | nil => simp at hb
  | cons c t =>
    simp only [List.head?_cons, Option.some.injEq] at hb
    subst hb
    apply decode_start c t
    intro hc
    have hmem : ((DecodeRuneInString (c :: t)).1, (c :: t).take (DecodeRuneInString (c :: t)).2)
        ∈ chunks (c :: t) := by
      rw [chunks_cons _ (by simp)]
      exact List.mem_cons_self _ _
    have := h _ hmem
    rw [hc, IsSpace_RuneError] at this
    exact absurd this (by simp)


theorem scanBack_le (s : Str) (lim : Int) : ∀ (n : Nat) (start : Int),
    scanBack s lim n start ≤ start := by
  intro n
  induction n with
  | zero => intro start; simp [scanBack]
  | succ n ih =>
    intro start
    simp only [scanBack]
    split_ifs
    · exact le_refl _
    · have := ih (start - 1); omega
    · exact le_refl _

theorem decode_ascii (b : Fin 256) (t : Str) (h : b.val < RuneSelf) :
    DecodeRuneInString (b :: t) = (b.val, 1) := by
  simp [DecodeRuneInString, h]

/-- The last rune, decoded backwards: its width is within the string, and
either the last `size` bytes decode forwards to the same rune with the same
width, or the result is `(RuneError, 1)`. -/
theorem DecodeLastRuneInString_spec (x : Str) (hx : x ≠ []) :
    1 ≤ (DecodeLastRuneInString x).2 ∧ (DecodeLastRuneInString x).2 ≤ x.length ∧
    (DecodeRuneInString (x.drop (x.length - (DecodeLastRuneInString x).2)) =
        DecodeLastRuneInString x ∨
      DecodeLastRuneInString x = (RuneError, 1)) := by
  have hpos : 0 < x.length := List.length_pos.mpr hx
  have hne : x.length ≠ 0 := by omega
  unfold DecodeLastRuneInString
  simp only [hne, if_false]
  by_cases hr : (x.getD (x.length - 1) 0).val < RuneSelf
  · simp only [hr, if_true]
    refine ⟨le_refl _, hpos, Or.inl ?_⟩
    have hlt : x.length - 1 < x.length := by omega
    rw [List.drop_eq_getElem_cons hlt, List.getD_eq_getElem x 0 hlt] at *
    exact decode_ascii _ _ hr
  · simp only [hr, if_false]
    generalize hlim : (if (x.length : Int) - 4 < 0 then (0 : Int) else (x.length : Int) - 4) = lim
    have hsb := scanBack_le x lim 4 ((x.length : Int) - 2)
    generalize scanBack x lim 4 ((x.length : Int) - 2) = sb at hsb
    have hst : (if sb < 0 then 0 else sb.toNat) < x.length := by
      split_ifs <;> omega
    generalize (if sb < 0 then 0 else sb.toNat) = start at hst
    by_cases hsz : start + (DecodeRuneInString (x.drop start)).2 = x.length
    · simp only [hsz, ne_eq, not_true_eq_false, if_false]
      have : x.length - (DecodeRuneInString (x.drop start)).2 = start := by omega
      refine ⟨by omega, by omega, Or.inl ?_⟩
      rw [this]
    · simp only [ne_eq, hsz, not_false_eq_true, if_true]
      exact ⟨le_refl _, hpos, Or.inr trivial⟩

theorem takeWhile_append_of_all_false {α : Type} (p : α → Bool) (l₂ : List α)
    (h : ∀ x ∈ l₂, p x = false) : ∀ l₁ : List α, (l₁ ++ l₂).takeWhile p = l₁.takeWhile p := by
  intro l₁
  induction l₁ with
  | nil =>
    cases l₂ with
    | nil => rfl
    | cons a l => simp [List.takeWhile_cons, h a (by simp)]
  | cons a l ih =>
    by_cases ha : p a = true
    · simp [List.takeWhile_cons, ha, ih]
    · simp [List.takeWhile_cons, ha]


theorem getD_of_drop_eq_cons (s : Str) (j : Nat) (b : Fin 256) (rest : Str)
    (h : s.drop j = b :: rest) : s.getD j 0 = b := by
  have h0 : (s.drop j)[0]? = some b := by rw [h]; simp
  rw [List.getElem?_drop, Nat.add_zero] at h0
  simp [h0]

theorem chunks_cons_of_decode (p q : Str) (r : Nat) (hp : p ≠ [])
    (hD : DecodeRuneInString (p ++ q) = (r, p.length)) :
    chunks (p ++ q) = (r, p) :: chunks q := by
  have hne : p ++ q ≠ [] := by simp [hp]
  rw [chunks_cons _ hne, hD]
  simp

theorem lastIndexFuncLoop_spec (s : Str) (n : Nat) : ∀ i : Nat, i ≤ s.length → i ≤ n →
    (∀ x ∈ chunks (s.drop i), IsSpace x.1 = true) →
    ∃ k, (match lastIndexFuncLoop s IsSpace false n i with
      | some j =>
        if (s.getD j 0).val ≥ RuneSelf then s.take (j + (DecodeRuneInString (s.drop j)).2)
        else s.take (j + 1)
      | none => s.take 0) = s.take k ∧ (∀ x ∈ chunks (s.drop k), IsSpace x.1 = true) := by
  induction n with
  | zero =>
    intro i _ hi hsp
    have : i = 0 := by omega
    subst this
    exact ⟨0, by simp [lastIndexFuncLoop], hsp⟩
  | succ n ih =>
    intro i hil hin hsp
    by_cases hi0 : i = 0
    · subst hi0
      exact ⟨0, by simp [lastIndexFuncLoop], hsp⟩
    · have hipos : 0 < i := by omega
      have hxlen : (s.take i).length = i := by rw [List.length_take]; omega
      have hxne : s.take i ≠ [] := by
        intro hc; rw [hc] at hxlen; simp at hxlen; omega
      obtain ⟨hs1, hs2, hdisj⟩ := DecodeLastRuneInString_spec (s.take i) hxne
      rw [hxlen] at hs2 hdisj
      rcases hrs : DecodeLastRuneInString (s.take i) with ⟨r, size⟩
      rw [hrs] at hs1 hs2 hdisj
      simp only at hs1 hs2 hdisj
      have hplen : ((s.take i).drop (i - size)).length = size := by
        rw [List.length_drop, hxlen]; omega
      have hpne : (s.take i).drop (i - size) ≠ [] := by
        intro hc; rw [hc] at hplen; simp at hplen; omega
      have hdrop : s.drop (i - size) = (s.take i).drop (i - size) ++ s.drop i := by
        have := @List.drop_append_of_le_length _ (s.take i) (s.drop i) (i - size)
          (by rw [hxlen]; omega)
        rw [List.take_append_drop] at this
        exact this
      have hq := head_start_of_spaces (s.drop i) hsp
      have hle := decode_width_le_of_start _ (s.drop i) hpne hq
      have hdec := decode_append _ (s.drop i) hpne hle
      rw [hplen] at hle
      simp only [lastIndexFuncLoop, gt_iff_lt, hipos, if_true, hrs]
      by_cases hf : IsSpace r = true
      · simp only [hf, Bool.true_eq_false, beq_iff_eq, if_false]
        apply ih (i - size) (by omega) (by omega)
        have hD : DecodeRuneInString ((s.take i).drop (i - size)) = (r, size) := by
          rcases hdisj with h | h
          · exact h
          · simp only [Prod.mk.injEq] at h
            rw [h.1, IsSpace_RuneError] at hf
            exact absurd hf (by simp)
        rw [hdrop, chunks_cons_of_decode _ _ r hpne (by rw [hdec, hD, hplen])]
        intro x hx
        rcases List.mem_cons.mp hx with h | h
        · rw [h]; exact hf
        · exact hsp x h
      · have hf' : IsSpace r = false := by simpa using hf
        simp only [hf', beq_self_eq_true, if_true]
        refine ⟨i, ?_, hsp⟩
        have hge := decode_width_pos ((s.take i).drop (i - size) ++ s.drop i) (by simp [hpne])
        rw [hdrop]
        rcases hdisj with hD | hE
        · rw [hdec, hD]
          split_ifs with hb
          · rw [show i - size + (r, size).2 = i from by simp only; omega]
          · rcases hp : (s.take i).drop (i - size) with _ | ⟨b, p'⟩
            · exact absurd hp hpne
            · have hb' : s.getD (i - size) 0 = b := by
                rw [hp] at hdrop
                exact getD_of_drop_eq_cons s _ b _ hdrop
              rw [hp, decode_ascii b p' (by rw [← hb']; omega)] at hD
              simp only [Prod.mk.injEq] at hD
              rw [show i - size + 1 = i from by omega]
        · simp only [Prod.mk.injEq] at hE
          have hw : (DecodeRuneInString ((s.take i).drop (i - size) ++ s.drop i)).2 = 1 := by
            omega
          rw [hw, show i - size + 1 = i from by omega]
          simp

/-- The function `TrimRightFunc` with `IsSpace` cuts the string before a tail made of
white space only. -/
theorem TrimRightFunc_spec (u : Str) :
    ∃ k, TrimRightFunc u IsSpace = u.take k ∧
      (∀ x ∈ chunks (u.drop k), IsSpace x.1 = true) := by
  have := lastIndexFuncLoop_spec u u.length u.length (le_refl _) (le_refl _)
    (by simp [chunks_nil])
  exact this

/-- The field `Fields` finds first in a line is the leading run of non-space
runes of the trimmed line. -/
theorem Fields_of_TrimSpace (s : Str) (ht : TrimSpace s ≠ []) :
    ∃ tl, Fields s = leadRun (TrimSpace s) :: tl := by
  obtain ⟨k, hk, hsp⟩ := TrimRightFunc_spec (TrimLeftFunc s IsSpace)
  have htk : TrimSpace s = (TrimLeftFunc s IsSpace).take k := hk
  have hch : chunks (TrimLeftFunc s IsSpace) =
      chunks (TrimSpace s) ++ chunks ((TrimLeftFunc s IsSpace).drop k) := by
    rw [htk, ← chunks_append_of_start _ (head_start_of_spaces _ hsp), List.take_append_drop]
  have hu : chunks (TrimLeftFunc s IsSpace) = (chunks s).dropWhile (fun x => IsSpace x.1) := by
    rw [TrimLeftFunc_eq]
    exact chunks_unchunk_suffix s _ (List.dropWhile_suffix _)
  have hne : (chunks s).dropWhile (fun x => IsSpace x.1) ≠ [] := by
    rw [← hu, hch]
    intro hc
    have := (List.append_eq_nil.mp hc).1
    exact ht ((chunks_eq_nil_iff _).mp this)
  obtain ⟨tl, htl⟩ := fieldsOfChunks_none IsSpace (chunks s) hne
  refine ⟨tl, ?_⟩
  unfold Fields
  rw [FieldsFunc_eq, htl, ← hu, hch,
    takeWhile_append_of_all_false _ _ (fun x hx => by simp [hsp x hx])]
  rfl


/-! ## Lemmas on the white space of a line -/

/-- A line trims to the empty string exactly when all its runes are white
space. -/
theorem TrimSpace_eq_nil_iff (s : Str) :
    TrimSpace s = [] ↔ ∀ r ∈ runes s, IsSpace r = true := by
  obtain ⟨k, hk, hsp⟩ := TrimRightFunc_spec (TrimLeftFunc s IsSpace)
  have htk : TrimSpace s = (TrimLeftFunc s IsSpace).take k := hk
  have hu : chunks (TrimLeftFunc s IsSpace) = (chunks s).dropWhile (fun x => IsSpace x.1) := by
    rw [TrimLeftFunc_eq]
    exact chunks_unchunk_suffix s _ (List.dropWhile_suffix _)
  constructor
  · intro ht
    have hunil : TrimLeftFunc s IsSpace = [] := by
      rcases TrimLeftFunc_head s IsSpace with h | h
      · exact h
      · by_contra hne
        rw [htk] at ht
        have hk0 : (TrimLeftFunc s IsSpace).drop k = TrimLeftFunc s IsSpace := by
          have := List.take_append_drop k (TrimLeftFunc s IsSpace)
          rw [ht, List.nil_append] at this
          exact this
        rw [hk0] at hsp
        have hmem := hsp _ (by rw [chunks_cons _ hne]; exact List.mem_cons_self _ _)
        simp only at hmem
        rw [h] at hmem
        exact absurd hmem (by simp)
    rw [hunil, chunks_nil] at hu
    have hall := List.dropWhile_eq_nil_iff.mp hu.symm
    intro r hr
    obtain ⟨x, hx, hxr⟩ := List.mem_map.mp hr
    rw [← hxr]
    exact hall x hx
  · intro hall
    have hd : (chunks s).dropWhile (fun x => IsSpace x.1) = [] :=
      List.dropWhile_eq_nil_iff.mpr (fun x hx => hall x.1 (List.mem_map.mpr ⟨x, hx, rfl⟩))
    have hunil : TrimLeftFunc s IsSpace = [] := by
      rw [TrimLeftFunc_eq, hd]; rfl
    rw [htk, hunil, List.take_nil]

/-- A line that begins with `#` still begins with `#` once trimmed. -/
theorem TrimSpace_head_hash (s : Str) (h : s.head? = some 0x23) :
    (TrimSpace s).head? = some 0x23 := by
  cases s with
  | nil => simp at h
  | cons b t =>
    simp only [List.head?_cons, Option.some.injEq] at h
    subst h
    have hdec : DecodeRuneInString ((0x23 : Fin 256) :: t) = (0x23, 1) :=
      decode_ascii _ _ (by decide)
    have hns : IsSpace (DecodeRuneInString ((0x23 : Fin 256) :: t)).1 = false := by
      rw [hdec]; decide
    have hu : TrimLeftFunc ((0x23 : Fin 256) :: t) IsSpace = (0x23 : Fin 256) :: t := by
      rw [TrimLeftFunc_eq, chunks_cons _ (by simp),
        List.dropWhile_cons_of_neg (by simp [hns]), ← chunks_cons _ (by simp), unchunk_chunks]
    obtain ⟨k, hk, hsp⟩ := TrimRightFunc_spec (TrimLeftFunc ((0x23 : Fin 256) :: t) IsSpace)
    have htk : TrimSpace ((0x23 : Fin 256) :: t) =
        (TrimLeftFunc ((0x23 : Fin 256) :: t) IsSpace).take k := hk
    rw [hu] at htk hsp
    rw [htk]
    cases k with
    | zero =>
      have hmem := hsp _ (by rw [List.drop_zero, chunks_cons _ (by simp)]; exact List.mem_cons_self _ _)
      simp only at hmem
      rw [hns] at hmem
      exact absurd hmem (by simp)
    | succ k => simp

/-! ## Lemmas on `persist` and on the loop of `Repl` -/

theorem writeItems_frame (path : String) : ∀ (items : List Str) (w : World),
    (writeItems items path w).2.stdout = w.stdout ∧
    (writeItems items path w).2.stderr = w.stderr ∧
    (writeItems items path w).2.calls = w.calls ∧
    (writeItems items path w).2.exit = w.exit := by
  intro items
  induction items with
  | nil => intro w; simp [writeItems]
  | cons item rest ih =>
    intro w
    simp only [writeItems]
    split
    · simp
    · obtain ⟨h1, h2, h3, h4⟩ := ih (w.append path (item ++ [0x0A]))
      exact ⟨h1, h2, h3, h4⟩

theorem persist_frame (term : Liner) (path : String) (w : World) :
    (persist term path w).2.stdout = w.stdout ∧
    (persist term path w).2.stderr = w.stderr ∧
    (persist term path w).2.calls = w.calls ∧
    (persist term path w).2.exit = w.exit := by
  unfold persist OpenFile
  split
  · simp
  · rename_i w1 hw1
    have hframe : w1.stdout = w.stdout ∧ w1.stderr = w.stderr ∧ w1.calls = w.calls ∧
        w1.exit = w.exit := by
      split at hw1
      · simp at hw1
      · split at hw1 <;> simp only [Except.ok.injEq] at hw1 <;> subst hw1 <;> simp
    obtain ⟨h1, h2, h3, h4⟩ := writeItems_frame path term.history w1
    unfold Liner.WriteHistory
    split <;> rename_i heq <;> rw [heq] at h1 h2 h3 h4 <;>
      exact ⟨h1.trans hframe.1, h2.trans hframe.2.1, h3.trans hframe.2.2.1,
        h4.trans hframe.2.2.2⟩

/-- With no failing write, `writeItems` appends the text of the items. -/
theorem writeItems_ok (path : String) : ∀ (items : List Str) (w : World) (c : Str),
    w.files path = some c → w.writeErr path = none →
    (writeItems items path w).1 = none ∧
    (writeItems items path w).2.files path = some (c ++ historyText items) ∧
    (writeItems items path w).2.openErr = w.openErr ∧
    (writeItems items path w).2.writeErr = w.writeErr := by
  intro items
  induction items with
  | nil =>
    intro w c hc _
    simp [writeItems, historyText, hc]
  | cons item rest ih =>
    intro w c hc hw
    have hfiles : (w.append path (item ++ [0x0A])).files path = some (c ++ (item ++ [0x0A])) := by
      simp [World.append, hc]
    obtain ⟨h1, h2, h3, h4⟩ := ih (w.append path (item ++ [0x0A])) _ hfiles hw
    simp only [writeItems, hw]
    refine ⟨h1, ?_, h3, h4⟩
    rw [h2]
    simp [historyText]

/-- With no failing open or write, `persist` returns `nil` and leaves the file
with the text of the whole history added at its end. -/
theorem persist_ok (term : Liner) (path : String) (w : World)
    (ho : w.openErr path = none) (hw : w.writeErr path = none) :
    (persist term path w).1 = none ∧
    (persist term path w).2.files path =
      some ((w.files path).getD [] ++ historyText term.history) ∧
    (persist term path w).2.openErr path = none ∧
    (persist term path w).2.writeErr path = none := by
  rcases hf : w.files path with _ | c
  · have hfiles : ({ w with files := fun p => if p = path then some [] else w.files p } :
        World).files path = some [] := by simp
    obtain ⟨h1, h2, h3, h4⟩ := writeItems_ok path term.history
      { w with files := fun p => if p = path then some [] else w.files p } [] hfiles hw
    simp only [persist, OpenFile, ho, hf, Liner.WriteHistory]
    split
    · rename_i err w2 heq
      rw [heq] at h1
      simp at h1
    · rename_i w2 heq
      rw [heq] at h2 h3 h4
      simp only at h2 h3 h4
      refine ⟨rfl, ?_, ?_, ?_⟩
      · rw [h2]; simp
      · rw [h3]; exact ho
      · rw [h4]; exact hw
  · obtain ⟨h1, h2, h3, h4⟩ := writeItems_ok path term.history w c hf hw
    simp only [persist, OpenFile, ho, hf, Liner.WriteHistory]
    split
    · rename_i err w2 heq
      rw [heq] at h1
      simp at h1
    · rename_i w2 heq
      rw [heq] at h2 h3 h4
      simp only at h2 h3 h4
      refine ⟨rfl, ?_, ?_, ?_⟩
      · rw [h2]; simp
      · rw [h3]; exact ho
      · rw [h4]; exact hw

/-- After `AppendHistory` the item is the newest entry of the history. -/
theorem AppendHistory_getLast (s : Liner) (item : Str) :
    (s.AppendHistory item).history.getLast? = some item := by
  unfold Liner.AppendHistory
  split_ifs with h1 h2
  · exact h1.2
  · rw [List.getLast?_drop, if_neg (by unfold HistoryLimit at h2; omega), List.getLast?_concat]
  · exact List.getLast?_concat _

/-- What `AppendHistory` does to the history, case by case: nothing when the
item is the newest entry already; otherwise the item is added at the end, and
the oldest entry is dropped when the history held `HistoryLimit` entries. -/
theorem AppendHistory_history (s : Liner) (item : Str) :
    (s.history.getLast? = some item ∧ (s.AppendHistory item).history = s.history) ∨
    (s.history.getLast? ≠ some item ∧ s.history.length < HistoryLimit ∧
      (s.AppendHistory item).history = s.history ++ [item]) ∨
    (s.history.getLast? ≠ some item ∧ HistoryLimit ≤ s.history.length ∧
      (s.AppendHistory item).history = (s.history ++ [item]).drop 1) := by
  by_cases hlast : s.history.getLast? = some item
  · left
    refine ⟨hlast, ?_⟩
    have hpos : s.history.length > 0 := by
      cases hh : s.history with
      | nil => rw [hh] at hlast; simp at hlast
      | cons a l => simp
    simp [Liner.AppendHistory, hpos, hlast]
  · right
    by_cases hlim : s.history.length < HistoryLimit
    · left
      refine ⟨hlast, hlim, ?_⟩
      have : ¬ (s.history ++ [item]).length > HistoryLimit := by
        rw [List.length_append, List.length_singleton]; omega
      simp only [Liner.AppendHistory, hlast, and_false, if_false, this]
    · right
      refine ⟨hlast, by omega, ?_⟩
      have : (s.history ++ [item]).length > HistoryLimit := by
        rw [List.length_append, List.length_singleton]; omega
      simp only [Liner.AppendHistory, hlast, and_false, if_false, this, if_true]

theorem Run_stdout (q : Str) (w : World) : (Run q w).stdout = w.stdout ++ [Output.str "\n"] := rfl

theorem loopBody_line (st : LoopState) (l : Str) :
    loopBody st { line := l, err := none } =
      ({ st with term := st.term.AppendHistory l,
                 world := st.world.call (TermCall.AppendHistory l) }, none) := by
  simp only [loopBody]
  split_ifs <;> rfl

theorem loopBody_eof (st : LoopState) (l : Str) :
    loopBody st { line := l, err := some GoError.EOF } =
      ({ st with world := st.world.print (Output.str "\n") }, some none) := by
  simp [loopBody]

theorem loopBody_err (st : LoopState) (l : Str) (e : GoError) (he : e ≠ GoError.EOF) :
    loopBody st { line := l, err := some e } = (st, some (some e)) := by
  simp [loopBody, he]

theorem promptsShown_append (a b : List TermCall) :
    promptsShown (a ++ b) = promptsShown a ++ promptsShown b := by
  induction a with
  | nil => rfl
  | cons c a ih =>
    cases c with
    | Prompt p => simp [promptsShown, ih]
    | AppendHistory i => simp [promptsShown, ih]

theorem replLoop_lines (pre : List PromptResult) (hpre : ∀ r ∈ pre, r.err = none) :
    ∀ (rest : List PromptResult) (st : LoopState),
      replLoop (pre ++ rest) st = replLoop rest (afterResults st pre) := by
  induction pre with
  | nil => intro rest st; rfl
  | cons r pre ih =>
    intro rest st
    have hr : r.err = none := hpre r (by simp)
    obtain ⟨l, e⟩ := r
    simp only at hr
    subst hr
    simp only [List.cons_append, replLoop, loopBody_line, afterResults, List.foldl_cons]
    exact ih (fun r hr => hpre r (by simp [hr])) rest _

theorem afterResults_lines (pre : List PromptResult) (hpre : ∀ r ∈ pre, r.err = none) :
    ∀ st : LoopState,
      (afterResults st pre).code = st.code ∧
      (afterResults st pre).world.stdout = st.world.stdout ∧
      (promptsShown (afterResults st pre).world.calls).length =
        (promptsShown st.world.calls).length + pre.length := by
  induction pre with
  | nil => intro st; simp [afterResults]
  | cons r pre ih =>
    intro st
    have hr : r.err = none := hpre r (by simp)
    obtain ⟨l, e⟩ := r
    simp only at hr
    subst hr
    obtain ⟨h1, h2, h3⟩ := ih (fun r hr => hpre r (by simp [hr]))
      (loopBody (callPrompt st) { line := l, err := none }).1
    simp only [afterResults, List.foldl_cons] at h1 h2 h3 ⊢
    rw [h1, h2, h3]
    simp only [loopBody_line, callPrompt, World.call, promptsShown_append, promptsShown,
      List.length_append, List.length_cons, List.length_nil]
    refine ⟨trivial, trivial, by omega⟩

/-- The code buffer stays empty through the loop, and the prompts it shows are
all the primary prompt. -/
theorem replLoop_primary : ∀ (input : List PromptResult) (st : LoopState), st.code = [] →
    (replLoop input st).1.code = [] ∧
    ∃ made, (replLoop input st).1.world.calls = st.world.calls ++ made ∧
      ∀ p ∈ promptsShown made, p = ps1 := by
  intro input
  induction input with
  | nil =>
    intro st hc
    refine ⟨hc, [TermCall.Prompt ps1], ?_, ?_⟩
    · simp [replLoop, callPrompt, World.call, hc]
    · simp [promptsShown]
  | cons r rest ih =>
    intro st hc
    obtain ⟨l, e⟩ := r
    cases e with
    | none =>
      simp only [replLoop, loopBody_line]
      obtain ⟨h1, made, h2, h3⟩ := ih
        { callPrompt st with term := (callPrompt st).term.AppendHistory l,
                             world := (callPrompt st).world.call (TermCall.AppendHistory l) }
        (by simp [callPrompt, hc])
      refine ⟨h1, [TermCall.Prompt ps1, TermCall.AppendHistory l] ++ made, ?_, ?_⟩
      · rw [h2]; simp [callPrompt, World.call, hc]
      · intro p hp
        rw [promptsShown_append] at hp
        simp only [promptsShown, List.mem_append, List.mem_singleton] at hp
        rcases hp with hp | hp
        · exact hp
        · exact h3 p hp
    | some e =>
      by_cases he : e = GoError.EOF
      · subst he
        simp only [replLoop, loopBody_eof]
        refine ⟨by simp [callPrompt, hc], [TermCall.Prompt ps1], ?_, ?_⟩
        · simp [callPrompt, World.call, World.print, hc]
        · simp [promptsShown]
      · simp only [replLoop, loopBody_err _ _ _ he]
        refine ⟨by simp [callPrompt, hc], [TermCall.Prompt ps1], ?_, ?_⟩
        · simp [callPrompt, World.call, hc]
        · simp [promptsShown]

/-- Every run of the two goroutines keeps the count of the calls made. -/
theorem Shutdown_run_counts : ∀ (moves : List Move) (s0 s : Shutdown),
    s0.persistCalls = (if s0.repl = ReplAt.reading then 0 else 1) +
      (if s0.sig = WatcherAt.waiting then 0 else 1) →
    s0.exitCalls = (if s0.sig = WatcherAt.exited then 1 else 0) →
    Shutdown.run moves s0 = some s →
    s.persistCalls = (if s.repl = ReplAt.reading then 0 else 1) +
      (if s.sig = WatcherAt.waiting then 0 else 1) ∧
    s.exitCalls = (if s.sig = WatcherAt.exited then 1 else 0) := by
  intro moves
  induction moves with
  | nil =>
    intro s0 s h1 h2 hr
    simp only [Shutdown.run, Option.some.injEq] at hr
    subst hr
    exact ⟨h1, h2⟩
  | cons m rest ih =>
    intro s0 s h1 h2 hr
    simp only [Shutdown.run] at hr
    rcases hs : s0.step m with _ | s1
    · rw [hs] at hr; simp at hr
    · rw [hs] at hr
      simp only at hr
      refine ih s1 s ?_ ?_ hr
      · obtain ⟨r0, g0, pc, ec⟩ := s0
        cases m <;> cases r0 <;> cases g0 <;> simp [Shutdown.step] at hs <;>
          subst hs <;> simp_all
      · obtain ⟨r0, g0, pc, ec⟩ := s0
        cases m <;> cases r0 <;> cases g0 <;> simp [Shutdown.step] at hs <;>
          subst hs <;> simp_all

theorem take_of_takeWhile {α : Type} (p : α → Bool) : ∀ l : List α,
    ∃ k, l.takeWhile p = l.take k := by
  intro l
  induction l with
  | nil => exact ⟨0, rfl⟩
  | cons a l ih =>
    by_cases ha : p a = true
    · obtain ⟨k, hk⟩ := ih
      exact ⟨k + 1, by rw [List.takeWhile_cons_of_pos ha, hk]; rfl⟩
    · exact ⟨0, by rw [List.takeWhile_cons_of_neg ha]; rfl⟩

theorem replStart_code (w : World) : (replStart w).code = [] := by
  unfold replStart
  rfl

theorem replStart_calls (w : World) : (replStart w).world.calls = w.calls := by
  unfold replStart terminal
  simp only []
  split <;> split <;> rfl

theorem Repl_of_lines (w : World) (pre : List PromptResult)
    (hpre : ∀ r ∈ pre, r.err = none) :
    Repl w pre = { returned := none, state := callPrompt (afterResults (replStart w) pre) } := by
  have h := replLoop_lines pre hpre [] (replStart w)
  rw [List.append_nil] at h
  simp only [Repl, h, replLoop]

theorem Repl_of_error (w : World) (pre : List PromptResult)
    (hpre : ∀ r ∈ pre, r.err = none) (l : Str) (e : GoError) (post : List PromptResult) :
    Repl w (pre ++ { line := l, err := some e } :: post) =
      { returned := some (if e = GoError.EOF then none else some e),
        state :=
          { (loopBody (callPrompt (afterResults (replStart w) pre))
                { line := l, err := some e }).1 with
            world := (persist (afterResults (replStart w) pre).term history
              (loopBody (callPrompt (afterResults (replStart w) pre))
                { line := l, err := some e }).1.world).2 } } := by
  have h := replLoop_lines pre hpre ({ line := l, err := some e } :: post) (replStart w)
  by_cases he : e = GoError.EOF
  · subst he
    simp only [Repl, h, replLoop, loopBody_eof, if_true]
    rfl
  · simp only [Repl, h, replLoop, loopBody_err _ _ _ he, if_neg he]
    rfl

theorem Shutdown_run_progress : ∀ (moves : List Move) (s0 s : Shutdown),
    Shutdown.run moves s0 = some s →
    ((s0.sig ≠ WatcherAt.waiting ∨ Move.signal ∈ moves) → s.sig ≠ WatcherAt.waiting) ∧
    ((s0.repl ≠ ReplAt.reading ∨ Move.eof ∈ moves) → s.repl ≠ ReplAt.reading) := by
  intro moves
  induction moves with
  | nil =>
    intro s0 s hr
    simp only [Shutdown.run, Option.some.injEq] at hr
    subst hr
    simp
  | cons m rest ih =>
    intro s0 s hr
    simp only [Shutdown.run] at hr
    rcases hs : s0.step m with _ | s1
    · rw [hs] at hr; simp at hr
    · rw [hs] at hr
      simp only at hr
      obtain ⟨ih1, ih2⟩ := ih s1 s hr
      obtain ⟨r0, g0, pc, ec⟩ := s0
      constructor
      · intro h
        apply ih1
        cases m <;> cases r0 <;> cases g0 <;> simp [Shutdown.step] at hs <;>
          subst hs <;> simp_all
      · intro h
        apply ih2
        cases m <;> cases r0 <;> cases g0 <;> simp [Shutdown.step] at hs <;>
          subst hs <;> simp_all

/-! ## The claims -/

/-- C1: for every line `splitLine` returns a result, the index
`Fields(line)[0]` and the slice `line[len(command):]` being in range; the
command is empty exactly when the trimmed line is empty, which is when the
line holds white space only, and then the arguments are empty too;
`splitLine("")` is `("", "")`. -/
theorem splitLine_total (s : Str) :
    ∃ command arguments, splitLine s = some (command, arguments) ∧
      (command = [] ↔ TrimSpace s = []) ∧
      (TrimSpace s = [] ↔ ∀ r ∈ runes s, IsSpace r = true) ∧
      (TrimSpace s = [] → arguments = []) ∧
      splitLine (bytes "") = some (bytes "", bytes "") := by
  refine ⟨leadRun (TrimSpace s), restRun (TrimSpace s), splitLine_eq s, ?_,
    TrimSpace_eq_nil_iff s, ?_, by decide⟩
  · constructor
    · intro h
      by_contra hne
      rcases TrimSpace_head s with ht | ht
      · exact hne ht
      · exact leadRun_ne_nil _ hne ht h
    · intro h
      rw [h]; rfl
  · intro h
    rw [h]; rfl

/-- C2: for every line the command is a prefix of the trimmed line and the
arguments are the rest of the trimmed line after it, as it stands: command
followed by arguments is the trimmed line, and the arguments are empty exactly
when the trimmed line is the command.  `splitLine("  :a b c d .")` is
`(":a", " b c d .")`. -/
theorem splitLine_concat (s : Str) :
    ∃ command arguments, splitLine s = some (command, arguments) ∧
      command <+: TrimSpace s ∧
      arguments = (TrimSpace s).drop command.length ∧
      command ++ arguments = TrimSpace s ∧
      (arguments = [] ↔ TrimSpace s = command) ∧
      splitLine (bytes "  :a b c d .") = some (bytes ":a", bytes " b c d .") := by
  have hsplit := leadRun_append_restRun (TrimSpace s)
  refine ⟨leadRun (TrimSpace s), restRun (TrimSpace s), splitLine_eq s,
    ⟨restRun (TrimSpace s), hsplit⟩, ?_, hsplit, ?_, by decide⟩
  · have key := List.drop_left (leadRun (TrimSpace s)) (restRun (TrimSpace s))
    rw [hsplit] at key
    exact key.symm
  · constructor
    · intro h
      rw [h, List.append_nil] at hsplit
      exact hsplit.symm
    · intro h
      have hlen := congrArg List.length hsplit
      rw [List.length_append] at hlen
      have hlen2 := congrArg List.length h
      exact List.eq_nil_of_length_eq_zero (by omega)

/-- C3: for a line whose trimmed form is not empty, the command is the first
field `Fields` cuts from the line; it is not empty, holds no white space rune,
is made of the first runes of the trimmed line and is at least as long as any
run of first runes of the trimmed line that holds no white space; arguments
that are not empty begin with a white space rune. -/
theorem splitLine_command (s : Str) (h : TrimSpace s ≠ []) :
    ∃ command arguments rest, splitLine s = some (command, arguments) ∧
      Fields s = command :: rest ∧
      (Fields (TrimSpace s)).head? = some command ∧
      command ≠ [] ∧
      (∀ r ∈ runes command, IsSpace r = false) ∧
      (∃ k, command = unchunk ((chunks (TrimSpace s)).take k)) ∧
      (∀ k, (∀ x ∈ (chunks (TrimSpace s)).take k, IsSpace x.1 = false) →
        (unchunk ((chunks (TrimSpace s)).take k)).length ≤ command.length) ∧
      (arguments ≠ [] → IsSpace (DecodeRuneInString arguments).1 = true) := by
  have hsp : IsSpace (DecodeRuneInString (TrimSpace s)).1 = false := by
    rcases TrimSpace_head s with ht | ht
    · exact absurd ht h
    · exact ht
  obtain ⟨rest, hrest⟩ := Fields_of_TrimSpace s h
  obtain ⟨tl, htl⟩ := Fields_head _ h hsp
  obtain ⟨k, hk⟩ := take_of_takeWhile (fun x => !IsSpace x.1) (chunks (TrimSpace s))
  refine ⟨leadRun (TrimSpace s), restRun (TrimSpace s), rest, splitLine_eq s, hrest, ?_,
    leadRun_ne_nil _ h hsp, runes_leadRun _, ⟨k, by unfold leadRun; rw [hk]⟩,
    fun k hk => leadRun_longest _ k hk, ?_⟩
  · rw [htl]; rfl
  · intro hne
    rcases restRun_head (TrimSpace s) with hr | hr
    · exact absurd hr hne
    · exact hr

/-- C3, on the line `solo`: the trimmed line is not empty, and `splitLine`
gives the command `solo` with no arguments. -/
theorem splitLine_command_witness :
    TrimSpace (bytes "solo") ≠ [] ∧
    splitLine (bytes "solo") = some (bytes "solo", bytes "") ∧
    ∃ command arguments rest, splitLine (bytes "solo") = some (command, arguments) ∧
      Fields (bytes "solo") = command :: rest ∧
      (Fields (TrimSpace (bytes "solo"))).head? = some command ∧
      command ≠ [] ∧
      (∀ r ∈ runes command, IsSpace r = false) ∧
      (∃ k, command = unchunk ((chunks (TrimSpace (bytes "solo"))).take k)) ∧
      (∀ k, (∀ x ∈ (chunks (TrimSpace (bytes "solo"))).take k, IsSpace x.1 = false) →
        (unchunk ((chunks (TrimSpace (bytes "solo"))).take k)).length ≤ command.length) ∧
      (arguments ≠ [] → IsSpace (DecodeRuneInString arguments).1 = true) :=
  ⟨by decide, by decide, splitLine_command (bytes "solo") (by decide)⟩

/-- C4, as the code has it: in every run of `Repl` and the signal watcher,
each of them has called `persist` once as soon as it has left its waiting
place, and `os.Exit` has been called once exactly when the watcher is past it.
So `persist` is called at least once when a signal is taken or `io.EOF` is
read, twice when both happen, and `os.Exit` is called at most once, by the
watcher. -/
theorem shutdown_counts (moves : List Move) (s : Shutdown)
    (h : Shutdown.run moves Shutdown.start = some s) :
    s.persistCalls = (if s.repl = ReplAt.reading then 0 else 1) +
      (if s.sig = WatcherAt.waiting then 0 else 1) ∧
    s.exitCalls = (if s.sig = WatcherAt.exited then 1 else 0) ∧
    s.exitCalls ≤ 1 ∧
    (Move.signal ∈ moves ∨ Move.eof ∈ moves → 1 ≤ s.persistCalls) ∧
    (Move.signal ∈ moves → Move.eof ∈ moves → s.persistCalls = 2) := by
  obtain ⟨h1, h2⟩ := Shutdown_run_counts moves Shutdown.start s rfl rfl h
  obtain ⟨h3, h4⟩ := Shutdown_run_progress moves Shutdown.start s h
  refine ⟨h1, h2, ?_, ?_, ?_⟩
  · rw [h2]; split_ifs <;> omega
  · intro hor
    rcases hor with hs | he
    · have hs1 := h3 (Or.inr hs)
      rw [h1, if_neg hs1]; omega
    · have he1 := h4 (Or.inr he)
      rw [h1, if_neg he1]; omega
  · intro hs he
    have hs1 := h3 (Or.inr hs)
    have he1 := h4 (Or.inr he)
    rw [h1, if_neg he1, if_neg hs1]

/-- C4, on the run in which the signal comes first and `io.EOF` is read while
the watcher is inside `persist`: two calls of `persist`. -/
theorem shutdown_counts_witness :
    Shutdown.run [Move.signal, Move.eof] Shutdown.start =
      some { repl := ReplAt.flushing, sig := WatcherAt.flushing,
             persistCalls := 2, exitCalls := 0 } ∧
    ({ repl := ReplAt.flushing, sig := WatcherAt.flushing,
       persistCalls := 2, exitCalls := 0 } : Shutdown).persistCalls = 2 :=
  ⟨by decide,
    (shutdown_counts [Move.signal, Move.eof]
      { repl := ReplAt.flushing, sig := WatcherAt.flushing, persistCalls := 2, exitCalls := 0 }
      (by decide)).2.2.2.2 (by decide) (by decide)⟩

/-- C4 fails as stated: a signal taken before `Repl` reads `io.EOF`, with the
watcher still inside `persist`, lets `Repl` enter its deferred `persist` as
well, and the run ends with two calls of `persist`. -/
theorem shutdown_persist_twice :
    Shutdown.run [Move.signal, Move.eof, Move.replReturn, Move.watcherExit] Shutdown.start =
      some { repl := ReplAt.returned, sig := WatcherAt.exited,
             persistCalls := 2, exitCalls := 1 } := by
  decide

/-- C5, as the code has it: with no failing open or write, two calls of
`persist` in a row both return `nil`, the first leaves the file with the text
of the whole in-memory history added at its end, and the second adds that text
once more. -/
theorem persist_twice_appends_twice (term : Liner) (path : String) (w : World)
    (ho : w.openErr path = none) (hw : w.writeErr path = none) :
    (persist term path w).1 = none ∧
    (persist term path (persist term path w).2).1 = none ∧
    (persist term path w).2.files path =
      some ((w.files path).getD [] ++ historyText term.history) ∧
    (persist term path (persist term path w).2).2.files path =
      some ((w.files path).getD [] ++ historyText term.history ++ historyText term.history) := by
  obtain ⟨h1, h2, h3, h4⟩ := persist_ok term path w ho hw
  obtain ⟨k1, k2, _, _⟩ := persist_ok term path (persist term path w).2 h3 h4
  refine ⟨h1, k1, h2, ?_⟩
  rw [k2, h2]
  rfl

/-- C5, on a history of one entry and no history file yet. -/
theorem persist_twice_appends_twice_witness :
    freshWorld.openErr history = none ∧ freshWorld.writeErr history = none ∧
    (persist { history := [bytes "a"] } history
      (persist { history := [bytes "a"] } history freshWorld).2).2.files history =
      some ((freshWorld.files history).getD [] ++ historyText [bytes "a"] ++
        historyText [bytes "a"]) :=
  ⟨rfl, rfl,
    (persist_twice_appends_twice { history := [bytes "a"] } history freshWorld rfl rfl).2.2.2⟩

/-- C5 fails as stated: with the one entry `a` in the history, one call of
`persist` leaves the file with `a\n` and a second call leaves it with
`a\na\n`. -/
theorem persist_twice_differs :
    (persist { history := [bytes "a"] } history freshWorld).2.files history =
      some (bytes "a\n") ∧
    (persist { history := [bytes "a"] } history
      (persist { history := [bytes "a"] } history freshWorld).2).2.files history =
      some (bytes "a\na\n") ∧
    (persist { history := [bytes "a"] } history
      (persist { history := [bytes "a"] } history freshWorld).2).2.files history ≠
    (persist { history := [bytes "a"] } history freshWorld).2.files history := by
  decide

/-- C6 fails on the end-of-input path: with a history file that cannot be
opened and `io.EOF` as the first result of `term.Prompt`, the deferred
`persist` fails, yet `Repl` returns `nil` and nothing is written to the error
stream; the signal watcher in the same world reports the failure and ends the
process with status 1. -/
theorem Repl_drops_persist_failure :
    (Repl lockedWorld [{ line := [], err := some GoError.EOF }]).returned = some none ∧
    (Repl lockedWorld [{ line := [], err := some GoError.EOF }]).state.world.stderr = [] ∧
    (persist NewLiner history lockedWorld).1 =
      some (GoError.errorf "could not open %q to append history: %v" history
        (GoError.sys false "open .datalake_history: permission denied")) ∧
    (watcher NewLiner lockedWorld).exit = some 1 ∧
    (watcher NewLiner lockedWorld).stderr =
      [Output.fmtErr "failed to properly clean up terminal: %v\n"
        (GoError.errorf "could not open %q to append history: %v" history
          (GoError.sys false "open .datalake_history: permission denied"))] ∧
    (watcher NewLiner freshWorld).exit = some 0 := by
  decide

/-- C7: while `term.Prompt` returns lines and no error, `Repl` does not
return; at the first result with an error it returns, `nil` for `io.EOF` and
the error itself otherwise, whatever results would follow; it has then called
`term.Prompt` once per line and once more and made no call on the terminal
after, and it has printed one newline for `io.EOF` and nothing otherwise. -/
theorem Repl_stops_at_first_error (w : World) (pre : List PromptResult)
    (hpre : ∀ r ∈ pre, r.err = none) :
    (Repl w pre).returned = none ∧
    ∀ (l : Str) (e : GoError) (post : List PromptResult),
      (Repl w (pre ++ { line := l, err := some e } :: post)).returned =
        some (if e = GoError.EOF then none else some e) ∧
      Repl w (pre ++ { line := l, err := some e } :: post) =
        Repl w (pre ++ [{ line := l, err := some e }]) ∧
      (Repl w (pre ++ { line := l, err := some e } :: post)).state.world.calls =
        (Repl w pre).state.world.calls ∧
      (promptsShown (Repl w (pre ++ { line := l, err := some e } :: post)).state.world.calls).length
        = (promptsShown w.calls).length + pre.length + 1 ∧
      (Repl w (pre ++ { line := l, err := some e } :: post)).state.world.stdout =
        (Repl w pre).state.world.stdout ++
          (if e = GoError.EOF then [Output.str "\n"] else []) := by
  have hb := Repl_of_lines w pre hpre
  obtain ⟨_, hout, hcount⟩ := afterResults_lines pre hpre (replStart w)
  refine ⟨by rw [hb], ?_⟩
  intro l e post
  have he := Repl_of_error w pre hpre l e post
  have he2 := Repl_of_error w pre hpre l e []
  have hcalls : (Repl w (pre ++ { line := l, err := some e } :: post)).state.world.calls =
      (Repl w pre).state.world.calls := by
    rw [he, hb]
    simp only [(persist_frame _ _ _).2.2.1]
    by_cases hE : e = GoError.EOF
    · subst hE; simp only [loopBody_eof]; rfl
    · simp only [loopBody_err _ _ _ hE]
  refine ⟨by rw [he], by rw [he, he2], hcalls, ?_, ?_⟩
  · rw [hcalls, hb]
    simp only [callPrompt, World.call, promptsShown_append, promptsShown, List.length_append,
      List.length_cons, List.length_nil]
    rw [hcount, replStart_calls]
  · rw [he, hb]
    simp only [(persist_frame _ _ _).1]
    by_cases hE : e = GoError.EOF
    · subst hE; simp only [loopBody_eof, if_true]; rfl
    · simp only [loopBody_err _ _ _ hE, if_neg hE, List.append_nil]

/-- C7, on one line followed by `io.EOF` and by a line that is never read. -/
theorem Repl_stops_at_first_error_witness :
    (∀ r ∈ [({ line := bytes "x", err := none } : PromptResult)], r.err = none) ∧
    (Repl freshWorld [{ line := bytes "x", err := none }]).returned = none ∧
    (Repl freshWorld ([{ line := bytes "x", err := none }] ++
      { line := [], err := some GoError.EOF } :: [{ line := bytes "y", err := none }])).returned =
        some (if GoError.EOF = GoError.EOF then none else some GoError.EOF) :=
  ⟨by decide,
    (Repl_stops_at_first_error freshWorld [{ line := bytes "x", err := none }] (by decide)).1,
    ((Repl_stops_at_first_error freshWorld [{ line := bytes "x", err := none }] (by decide)).2
      [] GoError.EOF [{ line := bytes "y", err := none }]).1⟩

/-- C8, as the code has it: for a line that is empty, holds white space only
or begins with `#`, the trimmed line is empty or begins with `#`, so the loop
takes its `continue`; `AppendHistory` is called with the line as read, right
after the prompt.  That call leaves the history as it is when the line equals
its newest entry, and otherwise adds the line at its end, dropping the oldest
entry when the history was full; either way the line is the newest entry
after.  Nothing else happens: the code buffer and with it the next prompt are
unchanged, nothing is printed (a call of `Run` would print), and the loop goes
on with the next result. -/
theorem Repl_absorbs_blank_and_comment (st : LoopState) (raw : Str)
    (h : raw = [] ∨ (∀ r ∈ runes raw, IsSpace r = true) ∨ raw.head? = some 0x23) :
    ((TrimSpace raw).length = 0 ∨ (TrimSpace raw).head? = some 0x23) ∧
    loopBody (callPrompt st) { line := raw, err := none } =
      ({ callPrompt st with
          term := st.term.AppendHistory raw,
          world := (callPrompt st).world.call (TermCall.AppendHistory raw) }, none) ∧
    (loopBody (callPrompt st) { line := raw, err := none }).1.world.calls =
      st.world.calls ++ [TermCall.Prompt (callPrompt st).prompt, TermCall.AppendHistory raw] ∧
    (loopBody (callPrompt st) { line := raw, err := none }).1.term.history.getLast? = some raw ∧
    ((st.term.history.getLast? = some raw ∧
        (loopBody (callPrompt st) { line := raw, err := none }).1.term.history =
          st.term.history) ∨
      (st.term.history.getLast? ≠ some raw ∧ st.term.history.length < 1000 ∧
        (loopBody (callPrompt st) { line := raw, err := none }).1.term.history =
          st.term.history ++ [raw]) ∨
      (st.term.history.getLast? ≠ some raw ∧ 1000 ≤ st.term.history.length ∧
        (loopBody (callPrompt st) { line := raw, err := none }).1.term.history =
          (st.term.history ++ [raw]).drop 1)) ∧
    (loopBody (callPrompt st) { line := raw, err := none }).1.code = st.code ∧
    (callPrompt (loopBody (callPrompt st) { line := raw, err := none }).1).prompt =
      (callPrompt st).prompt ∧
    (loopBody (callPrompt st) { line := raw, err := none }).1.world.stdout = st.world.stdout ∧
    (∀ q, (loopBody (callPrompt st) { line := raw, err := none }).1.world.stdout ≠
      (Run q st.world).stdout) ∧
    (∀ rest, replLoop ({ line := raw, err := none } :: rest) st =
      replLoop rest (loopBody (callPrompt st) { line := raw, err := none }).1) := by
  refine ⟨?_, loopBody_line _ _, ?_, ?_, ?_, ?_, ?_, ?_, ?_, ?_⟩
  · rcases h with h | h | h
    · subst h; left; decide
    · left; rw [(TrimSpace_eq_nil_iff raw).mpr h]; rfl
    · right; exact TrimSpace_head_hash raw h
  · rw [loopBody_line]
    simp [callPrompt, World.call]
  · rw [loopBody_line]
    exact AppendHistory_getLast _ _
  · rw [loopBody_line]
    exact AppendHistory_history st.term raw
  · rw [loopBody_line]; rfl
  · rw [loopBody_line]; rfl
  · rw [loopBody_line]; rfl
  · intro q
    rw [loopBody_line, Run_stdout]
    intro hc
    have hlen := congrArg List.length hc
    simp [callPrompt, World.call] at hlen
  · intro rest
    simp only [replLoop, loopBody_line]

/-- C8 fails as stated: the empty line read twice in a row is handed to
`AppendHistory` both times, yet the second call adds nothing, the history
holding one entry after the first read and the same one entry after the
second. -/
theorem Repl_repeated_line_not_appended :
    (afterResults { term := NewLiner, prompt := ps1, code := [], world := freshWorld }
      [{ line := bytes "", err := none }]).term.history = [bytes ""] ∧
    (afterResults { term := NewLiner, prompt := ps1, code := [], world := freshWorld }
      [{ line := bytes "", err := none }, { line := bytes "", err := none }]).term.history =
        [bytes ""] ∧
    (afterResults { term := NewLiner, prompt := ps1, code := [], world := freshWorld }
      [{ line := bytes "", err := none }, { line := bytes "", err := none }]).world.calls =
        [TermCall.Prompt ps1, TermCall.AppendHistory (bytes ""),
         TermCall.Prompt ps1, TermCall.AppendHistory (bytes "")] ∧
    (Repl freshWorld
      [{ line := bytes "", err := none }, { line := bytes "", err := none }]).state.term.history =
        [bytes ""] := by
  decide

/-- C8, on the line `# note` read at the start of a session. -/
theorem Repl_absorbs_blank_and_comment_witness :
    (bytes "# note").head? = some 0x23 ∧
    (loopBody (callPrompt { term := NewLiner, prompt := ps1, code := [], world := freshWorld })
      { line := bytes "# note", err := none }).1.world.calls =
      freshWorld.calls ++
        [TermCall.Prompt
          (callPrompt { term := NewLiner, prompt := ps1, code := [], world := freshWorld }).prompt,
         TermCall.AppendHistory (bytes "# note")] :=
  ⟨by decide,
    (Repl_absorbs_blank_and_comment
      { term := NewLiner, prompt := ps1, code := [], world := freshWorld } (bytes "# note")
      (Or.inr (Or.inr (by decide)))).2.2.1⟩

/-- C9 fails on the code: started with the unknown command `bogus`, `main`
prints `No command bogus` and the usage and returns, so the process ends with
status 0; started with `init` and a `db.Init` that returns an error, it logs
the error and returns, status 0 again.  With `version` the status is 0, with
no command at all it is 1. -/
theorem main_status_of_failures :
    (main (plainSys ["site-intelligence", "bogus"])).2 = 0 ∧
    (main (plainSys ["site-intelligence", "bogus"])).1.stdout =
      [Output.str "No command bogus\n"] ∧
    (main (plainSys ["site-intelligence", "init"])).2 = 0 ∧
    (LogLine.error (GoError.sys false "cannot create database")) ∈
      (main (plainSys ["site-intelligence", "init"])).1.log ∧
    (main (plainSys ["site-intelligence", "version"])).2 = 0 ∧
    (main (plainSys ["site-intelligence"])).2 = 1 := by
  decide

/-- C10: in every run of `Repl`, whatever `term.Prompt` returns, the code
buffer is empty, and every prompt shown by a call `Repl` makes on the terminal
is the primary prompt `dl> `, never the continuation prompt. -/
theorem Repl_prompt_always_primary (w : World) (input : List PromptResult) :
    (Repl w input).state.code = [] ∧
    ∃ made, (Repl w input).state.world.calls = w.calls ++ made ∧
      ∀ p ∈ promptsShown made, p = ps1 ∧ p ≠ ps2 := by
  obtain ⟨h1, made, h2, h3⟩ := replLoop_primary input (replStart w) (replStart_code w)
  rw [replStart_calls] at h2
  have hne : ps1 ≠ ps2 := by decide
  unfold Repl
  split
  · rename_i st heq
    rw [heq] at h1 h2
    exact ⟨h1, made, h2, fun p hp => ⟨h3 p hp, by rw [h3 p hp]; exact hne⟩⟩
  · rename_i st ret heq
    rw [heq] at h1 h2
    refine ⟨h1, made, ?_, fun p hp => ⟨h3 p hp, by rw [h3 p hp]; exact hne⟩⟩
    simp only [(persist_frame _ _ _).2.2.1]
    exact h2

end Datalake
